import Mathlib

/-!
Verification of the provenance-mark engine: a shallow embedding of the mark
data model, the obfuscated wire layout, the hash-linking algorithm, the
resolution system, the compact date codecs, the deterministic PRNG and the
multi-mark validator, together with proofs of the specified properties.

Bytes are modelled as `Nat` values (a byte is `< 256` wherever the programs
produce one); machine words are `Nat` with explicit masking at the word size.
-/

set_option maxRecDepth 1000000

deriving instance DecidableEq for Except

namespace Provenance

/-- Mask for 32-bit words. -/
def M32 : Nat := 4294967295

/-- Mask for 64-bit words. -/
def M64 : Nat := 18446744073709551615

/-- Right rotation of a 32-bit word. -/
def rotr32 (x n : Nat) : Nat := ((x >>> n) ||| (x <<< (32 - n))) &&& M32

/-- Big-endian bytes of a number, fixed width `k`. -/
def beBytes : Nat → Nat → List Nat
  | 0, _ => []
  | k + 1, n => beBytes k (n / 256) ++ [n % 256]

/-- Big-endian value of a byte list. -/
def beNat (l : List Nat) : Nat := l.foldl (fun acc b => acc * 256 + b) 0

/-- Group a byte list into big-endian 32-bit words. -/
def toBeWords : List Nat → List Nat
  | b0 :: b1 :: b2 :: b3 :: rest =>
      ((b0 <<< 24) ||| (b1 <<< 16) ||| (b2 <<< 8) ||| b3) :: toBeWords rest
  | _ => []

/-- The 64 SHA-256 round constants. -/
def shaK : List Nat :=
  [1116352408, 1899447441, 3049323471, 3921009573, 961987163, 1508970993,
   2453635748, 2870763221, 3624381080, 310598401, 607225278, 1426881987,
   1925078388, 2162078206, 2614888103, 3248222580, 3835390401, 4022224774,
   264347078, 604807628, 770255983, 1249150122, 1555081692, 1996064986,
   2554220882, 2821834349, 2952996808, 3210313671, 3336571891, 3584528711,
   113926993, 338241895, 666307205, 773529912, 1294757372, 1396182291,
   1695183700, 1986661051, 2177026350, 2456956037, 2730485921, 2820302411,
   3259730800, 3345764771, 3516065817, 3600352804, 4094571909, 275423344,
   430227734, 506948616, 659060556, 883997877, 958139571, 1322822218,
   1537002063, 1747873779, 1955562222, 2024104815, 2227730452, 2361852424,
   2428436474, 2756734187, 3204031479, 3329325298]

/-- The eight SHA-256 initial hash values. -/
def shaH0 : List Nat :=
  [1779033703, 3144134277, 1013904242, 2773480762, 1359893119, 2600822924,
   528734635, 1541459225]

/-- SHA-256 small sigma 0. -/
def ssig0 (x : Nat) : Nat := (rotr32 x 7) ^^^ (rotr32 x 18) ^^^ (x >>> 3)

/-- SHA-256 small sigma 1. -/
def ssig1 (x : Nat) : Nat := (rotr32 x 17) ^^^ (rotr32 x 19) ^^^ (x >>> 10)

/-- SHA-256 big sigma 0. -/
def bsig0 (x : Nat) : Nat := (rotr32 x 2) ^^^ (rotr32 x 13) ^^^ (rotr32 x 22)

/-- SHA-256 big sigma 1. -/
def bsig1 (x : Nat) : Nat := (rotr32 x 6) ^^^ (rotr32 x 11) ^^^ (rotr32 x 25)

/-- SHA-256 choice function. -/
def shaCh (x y z : Nat) : Nat := (x &&& y) ^^^ ((x ^^^ M32) &&& z)

/-- SHA-256 majority function. -/
def shaMaj (x y z : Nat) : Nat := (x &&& y) ^^^ (x &&& z) ^^^ (y &&& z)

/-- Extend a 16-word block to the 64-word message schedule; `t` counts the
remaining words to append. -/
def shaSchedule : Nat → List Nat → List Nat
  | 0, w => w
  | t + 1, w =>
      let n := w.length
      let x := (ssig1 (w.getD (n - 2) 0) + w.getD (n - 7) 0 +
                ssig0 (w.getD (n - 15) 0) + w.getD (n - 16) 0) &&& M32
      shaSchedule t (w ++ [x])

/-- One SHA-256 compression round. -/
def shaRound (st : Nat × Nat × Nat × Nat × Nat × Nat × Nat × Nat)
    (kw : Nat × Nat) : Nat × Nat × Nat × Nat × Nat × Nat × Nat × Nat :=
  let (a, b, c, d, e, f, g, h) := st
  let t1 := (h + bsig1 e + shaCh e f g + kw.1 + kw.2) &&& M32
  let t2 := (bsig0 a + shaMaj a b c) &&& M32
  ((t1 + t2) &&& M32, a, b, c, (d + t1) &&& M32, e, f, g)

/-- Compress one 64-byte block into the running 8-word state. -/
def shaCompress (hs : List Nat) (block : List Nat) : List Nat :=
  let w := shaSchedule 48 (toBeWords block)
  let init := (hs.getD 0 0, hs.getD 1 0, hs.getD 2 0, hs.getD 3 0,
               hs.getD 4 0, hs.getD 5 0, hs.getD 6 0, hs.getD 7 0)
  let st := (shaK.zip w).foldl shaRound init
  [(hs.getD 0 0 + st.1) &&& M32, (hs.getD 1 0 + st.2.1) &&& M32,
   (hs.getD 2 0 + st.2.2.1) &&& M32, (hs.getD 3 0 + st.2.2.2.1) &&& M32,
   (hs.getD 4 0 + st.2.2.2.2.1) &&& M32,
   (hs.getD 5 0 + st.2.2.2.2.2.1) &&& M32,
   (hs.getD 6 0 + st.2.2.2.2.2.2.1) &&& M32,
   (hs.getD 7 0 + st.2.2.2.2.2.2.2) &&& M32]

/-- SHA-256 padding: append 0x80, zero bytes, and the 64-bit big-endian bit
length so the total length is a multiple of 64. -/
def sha256Pad (msg : List Nat) : List Nat :=
  msg ++ [0x80] ++ List.replicate ((119 - msg.length % 64) % 64) 0 ++
    beBytes 8 (msg.length * 8)

/-- Split a list into 64-byte chunks; the first argument is recursion fuel. -/
def chunks64 : Nat → List Nat → List (List Nat)
  | 0, _ => []
  | _, [] => []
  | fuel + 1, l => l.take 64 :: chunks64 fuel (l.drop 64)

/-- SHA-256 of a byte list, as 32 bytes. -/
def sha256 (msg : List Nat) : List Nat :=
  let padded := sha256Pad msg
  (((chunks64 padded.length padded).foldl shaCompress shaH0).map
    (beBytes 4)).flatten

/-- First `n` bytes of the SHA-256 digest (`sha256_prefix` in the sources). -/
def sha256Prefix (msg : List Nat) (n : Nat) : List Nat := (sha256 msg).take n

/-- HMAC-SHA-256 (FIPS 198-1), modelling the external `hmac` collaborator. -/
def hmacSha256 (key msg : List Nat) : List Nat :=
  let k0 := if key.length > 64 then sha256 key else key
  let kp := k0 ++ List.replicate (64 - k0.length) 0
  sha256 ((kp.map (fun b => b ^^^ 0x5c)) ++
    sha256 ((kp.map (fun b => b ^^^ 0x36)) ++ msg))

/-- HKDF-HMAC-SHA-256 with empty info, output length 32
(`hkdf_hmac_sha256` in the sources, via the external `hkdf` collaborator):
extract gives the pseudo-random key, one expand round gives the output. -/
def hkdfHmacSha256 (keyMaterial salt : List Nat) : List Nat :=
  hmacSha256 (hmacSha256 salt keyMaterial) [0x01]

/-- Key extension (`extend_key` in the sources): HKDF with empty salt. -/
def extend_key (data : List Nat) : List Nat := hkdfHmacSha256 data []

/-- Little-endian 32-bit words of a byte list. -/
def toLeWords32 : List Nat → List Nat
  | b0 :: b1 :: b2 :: b3 :: rest =>
      (b0 ||| (b1 <<< 8) ||| (b2 <<< 16) ||| (b3 <<< 24)) :: toLeWords32 rest
  | _ => []

/-- Left rotation of a 32-bit word. -/
def rotl32 (x n : Nat) : Nat := ((x <<< n) ||| (x >>> (32 - n))) &&& M32

/-- ChaCha20 quarter round at positions `a b c d` of the 16-word state. -/
def chachaQuarter (s : List Nat) (a b c d : Nat) : List Nat :=
  let sa := (s.getD a 0 + s.getD b 0) &&& M32
  let sd := rotl32 (s.getD d 0 ^^^ sa) 16
  let sc := (s.getD c 0 + sd) &&& M32
  let sb := rotl32 (s.getD b 0 ^^^ sc) 12
  let sa2 := (sa + sb) &&& M32
  let sd2 := rotl32 (sd ^^^ sa2) 8
  let sc2 := (sc + sd2) &&& M32
  let sb2 := rotl32 (sb ^^^ sc2) 7
  (((((s.set a sa2).set b sb2).set c sc2).set d sd2))

/-- One ChaCha20 double round (column round then diagonal round). -/
def chachaDoubleRound (s : List Nat) : List Nat :=
  let s1 := chachaQuarter s 0 4 8 12
  let s2 := chachaQuarter s1 1 5 9 13
  let s3 := chachaQuarter s2 2 6 10 14
  let s4 := chachaQuarter s3 3 7 11 15
  let s5 := chachaQuarter s4 0 5 10 15
  let s6 := chachaQuarter s5 1 6 11 12
  let s7 := chachaQuarter s6 2 7 8 13
  chachaQuarter s7 3 4 9 14

/-- Iterate a function `n` times. -/
def iterate {α : Type} (f : α → α) : Nat → α → α
  | 0, x => x
  | n + 1, x => iterate f n (f x)

/-- Little-endian 4-byte serialization of a 32-bit word. -/
def leBytes4 (x : Nat) : List Nat :=
  [x % 256, (x >>> 8) % 256, (x >>> 16) % 256, (x >>> 24) % 256]

/-- One 64-byte ChaCha20 keystream block (RFC 8439, IETF variant with a
32-bit counter), modelling the external `chacha20` collaborator. -/
def chachaBlock (key nonce : List Nat) (counter : Nat) : List Nat :=
  let init := [0x61707865, 0x3320646e, 0x79622d32, 0x6b206574] ++
    toLeWords32 key ++ [counter &&& M32] ++ toLeWords32 nonce
  let mixed := iterate chachaDoubleRound 10 init
  ((List.zipWith (fun a b => (a + b) &&& M32) mixed init).map leBytes4).flatten

/-- The first `n` keystream bytes, blocks drawn from counter 0 upward. -/
def chachaKeystream (key nonce : List Nat) (n : Nat) : List Nat :=
  ((List.range (n / 64 + 1)).map (chachaBlock key nonce)).flatten.take n

/-- Obfuscation (`obfuscate` in the sources): ChaCha20 keystream XOR, keyed
by the HKDF-extended key, nonce the reversed last 12 bytes of that key. -/
def obfuscate (key message : List Nat) : List Nat :=
  if message = [] then message
  else
    let extendedKey := extend_key key
    let iv := extendedKey.reverse.take 12
    List.zipWith (fun a b => a ^^^ b) message
      (chachaKeystream extendedKey iv message.length)

/-- The xoshiro256** PRNG state: four 64-bit words. -/
structure Xoshiro256StarStar where
  s0 : Nat
  s1 : Nat
  s2 : Nat
  s3 : Nat
deriving DecidableEq, Repr

/-- Left rotation of a 64-bit word. -/
def rotl64 (x n : Nat) : Nat := ((x <<< n) ||| (x >>> (64 - n))) &&& M64

namespace Xoshiro256StarStar

/-- Read a little-endian 64-bit word from 8 bytes. -/
def leWord64 (b : List Nat) : Nat :=
  b.getD 0 0 ||| (b.getD 1 0 <<< 8) ||| (b.getD 2 0 <<< 16) |||
  (b.getD 3 0 <<< 24) ||| (b.getD 4 0 <<< 32) ||| (b.getD 5 0 <<< 40) |||
  (b.getD 6 0 <<< 48) ||| (b.getD 7 0 <<< 56)

/-- Build the PRNG from 32 bytes, as four little-endian 64-bit words
(`from_data` in the sources). -/
def from_data (data : List Nat) : Xoshiro256StarStar :=
  { s0 := leWord64 (data.take 8)
    s1 := leWord64 ((data.drop 8).take 8)
    s2 := leWord64 ((data.drop 16).take 8)
    s3 := leWord64 ((data.drop 24).take 8) }

/-- One `next_u64` draw: the starstar output and the advanced state. -/
def next_u64 (x : Xoshiro256StarStar) : Nat × Xoshiro256StarStar :=
  let result := (rotl64 ((x.s1 * 5) &&& M64) 7 * 9) &&& M64
  let t := (x.s1 <<< 17) &&& M64
  let s2 := x.s2 ^^^ x.s0
  let s3 := x.s3 ^^^ x.s1
  let s1 := x.s1 ^^^ s2
  let s0 := x.s0 ^^^ s3
  let s2t := s2 ^^^ t
  (result, { s0 := s0, s1 := s1, s2 := s2t, s3 := rotl64 s3 45 })

/-- One `next_byte` draw: the low 8 bits of a full `next_u64` step. -/
def next_byte (x : Xoshiro256StarStar) : Nat × Xoshiro256StarStar :=
  let (r, x') := next_u64 x
  (r % 256, x')

/-- Draw `len` bytes (`next_bytes` in the sources). -/
def next_bytes : Xoshiro256StarStar → Nat → List Nat × Xoshiro256StarStar
  | x, 0 => ([], x)
  | x, len + 1 =>
      let (b, x') := next_byte x
      let (bs, x'') := next_bytes x' len
      (b :: bs, x'')

end Xoshiro256StarStar

/-! ### Errors

The error kinds of the engine (error.rs), restricted to the variants the
embedded operations can raise. The date codecs raise string errors in the
sources; they are modelled by the dedicated variants below. -/

inductive Error
  | invalidKeyLength (expected actual : Nat)
  | invalidNextKeyLength (expected actual : Nat)
  | invalidChainIdLength (expected actual : Nat)
  | invalidMessageLength (expected actual : Nat)
  | invalidInfoCbor
  | yearOutOfRange
  | invalidMonthOrDay
  | dateOutOfRange
  | resolutionError
deriving DecidableEq, Repr

/-! ### Civil calendar and dates

A point in time is milliseconds since the reference date
2001-01-01T00:00:00Z (date.rs uses that reference for its 4- and 6-byte
codecs). The calendar conversions model the external chrono collaborator:
the proleptic Gregorian mapping between day numbers and year/month/day
triples, in Hinnant's era decomposition. -/

structure Date where
  millis : Int
deriving DecidableEq, Repr

/-- Start day (day-of-era) of a March-based year of era. -/
def yearStart (y : Nat) : Nat := 365 * y + y / 4 - y / 100

/-- The numerator of the year-of-era extraction. -/
def gFun (doe : Nat) : Nat := doe - doe / 1460 + doe / 36524 - doe / 146096

/-- Year-of-era extraction. -/
def yoeOf (doe : Nat) : Nat := gFun doe / 365

/-- Month and day from a day offset within a March-based year. -/
def monthDay (doy : Nat) : Nat × Nat :=
  let mp := (5 * doy + 2) / 153
  let d := doy - (153 * mp + 2) / 5 + 1
  let m := if mp < 10 then mp + 3 else mp - 9
  (m, d)

/-- Year/month/day of a day-of-era (0 ≤ doe < 146097); the year is relative
to the start of the 400-year era (March-based internally). -/
def civilOfDoe (doe : Nat) : Nat × Nat × Nat :=
  let yoe := yoeOf doe
  let md := monthDay (doe - yearStart yoe)
  (if md.1 ≤ 2 then yoe + 1 else yoe, md.1, md.2)

/-- March-based month pointer of a civil month. -/
def mpOf (m : Nat) : Nat := if m > 2 then m - 3 else m + 9

/-- Civil date of a day number (days since 1970-01-01). -/
def civilFromDays (z : Int) : Int × Nat × Nat :=
  let zz := z + 719468
  let era := zz / 146097
  let c := civilOfDoe (zz % 146097).toNat
  (era * 400 + c.1, c.2.1, c.2.2)

/-- Day-of-era of an era-relative civil date. -/
def doeOfCivil (yoe m d : Nat) : Nat :=
  yearStart yoe + ((153 * mpOf m + 2) / 5 + d - 1)

/-- Day number (days since 1970-01-01) of a civil date. -/
def daysFromCivil (y : Int) (m d : Nat) : Int :=
  let y2 := if m ≤ 2 then y - 1 else y
  let era := y2 / 400
  era * 146097 + ((doeOfCivil ((y2 % 400).toNat) m d : Int) - 719468)

/-- Day number of the reference date 2001-01-01. -/
def epoch2001Days : Int := 11323

/-- The day number a date falls on. -/
def Date.dayNumber (d : Date) : Int := d.millis / 86400000 + epoch2001Days

/-- The date at midnight UTC of a civil date. -/
def dateOfYmd (y : Int) (m dd : Nat) : Date :=
  ⟨(daysFromCivil y m dd - epoch2001Days) * 86400000⟩

/-- Last day of a month, as date.rs computes it (range_of_days_in_month):
the day component of the day before the first of the next month. -/
def lastDayOfMonth (y : Int) (m : Nat) : Nat :=
  let nextFirst :=
    if m = 12 then daysFromCivil (y + 1) 1 1 else daysFromCivil y (m + 1) 1
  (civilFromDays (nextFirst - 1)).2.2

/-- Last day-of-era of a March-based year of era. -/
def yearEnd (y : Nat) : Nat :=
  (if y = 399 then 146097 else yearStart (y + 1)) - 1

/-- Endpoint check for the year extraction. -/
def yCheck (y : Nat) : Bool :=
  (yoeOf (yearStart y) == y) && (yoeOf (yearEnd y) == y)

/-- A run of endpoint checks over consecutive years of era. -/
def yCheckRange (start len : Nat) : Bool :=
  (List.range len).all fun i => yCheck (start + i)

/-- Endpoint checks for the whole 400-year era, in shallow blocks. -/
def yCheckAll : Bool :=
  (List.range 20).all fun b => yCheckRange (20 * b) 20

/-- The era-local last-day-of-month computation (the day component of the
day before the first of the next month, with the era boundary clamped). -/
def natLastDay (y m : Nat) : Nat :=
  let p := if m = 12 then (y + 1, 1) else (y, m + 1)
  let y2n := if p.2 ≤ 2 then p.1 - 1 else p.1
  let nf := if 400 ≤ y2n then 146097 else doeOfCivil y2n p.2 1
  (civilOfDoe (nf - 1)).2.2

/-- The 2-byte date encoding (serialize_2_bytes): packs
year − 2023 (7 bits), month (4 bits), day (5 bits) big-endian. -/
def Date.serialize_2_bytes (date : Date) : Except Error (List Nat) :=
  let c := civilFromDays date.dayNumber
  let year := c.1
  let month := c.2.1
  let day := c.2.2
  let yy := year - 2023
  if ¬(0 ≤ yy ∧ yy < 128) then .error .yearOutOfRange
  else if ¬(1 ≤ month ∧ month ≤ 12 ∧ 1 ≤ day ∧ day ≤ 31) then
    .error .invalidMonthOrDay
  else
    let value := (yy.toNat <<< 9) ||| (month <<< 5) ||| day
    .ok [(value >>> 8) % 256, value % 256]

/-- The 2-byte date decoding (deserialize_2_bytes): unpacks the fields and
rejects month/day pairs that do not designate a real calendar date. -/
def Date.deserialize_2_bytes (b0 b1 : Nat) : Except Error Date :=
  let value := (b0 <<< 8) ||| b1
  let day := value &&& 31
  let month := (value >>> 5) &&& 15
  let yy := (value >>> 9) &&& 127
  let year : Int := (yy : Int) + 2023
  if ¬(1 ≤ month ∧ month ≤ 12 ∧ 1 ≤ day ∧ day ≤ lastDayOfMonth year month)
  then .error .invalidMonthOrDay
  else .ok (dateOfYmd year month day)

/-- The 4-byte date encoding: unsigned 32-bit big-endian seconds since the
reference date; seconds are truncated toward zero as chrono's num_seconds
does. -/
def Date.serialize_4_bytes (date : Date) : Except Error (List Nat) :=
  let seconds := date.millis.tdiv 1000
  if 0 ≤ seconds ∧ seconds ≤ 4294967295 then .ok (beBytes 4 seconds.toNat)
  else .error .dateOutOfRange

/-- The 4-byte date decoding: seconds since the reference date. -/
def Date.deserialize_4_bytes (b : List Nat) : Except Error Date :=
  .ok ⟨(beNat b : Int) * 1000⟩

/-- Maximum 6-byte date payload, 9999-12-31T23:59:59.999Z. -/
def maxMillis6 : Nat := 0xe5940a78a7ff

/-- The 6-byte date encoding: unsigned 48-bit big-endian milliseconds since
the reference date, bounded by maxMillis6. -/
def Date.serialize_6_bytes (date : Date) : Except Error (List Nat) :=
  if ¬(0 ≤ date.millis) then .error .dateOutOfRange
  else if (maxMillis6 : Int) < date.millis then .error .dateOutOfRange
  else .ok (beBytes 6 date.millis.toNat)

/-- The 6-byte date decoding, with the same bound check. -/
def Date.deserialize_6_bytes (b : List Nat) : Except Error Date :=
  let n := beNat b
  if maxMillis6 < n then .error .dateOutOfRange
  else .ok ⟨(n : Int)⟩

/-! ### Resolutions -/

inductive ProvenanceMarkResolution
  | low
  | medium
  | quartile
  | high
deriving DecidableEq, Repr

namespace ProvenanceMarkResolution

/-- The length of every link field (key, chain id, hash). -/
def link_length : ProvenanceMarkResolution → Nat
  | .low => 4
  | .medium => 8
  | .quartile => 16
  | .high => 32

/-- Width of the sequence-number field. -/
def seq_bytes_length : ProvenanceMarkResolution → Nat
  | .low => 2
  | _ => 4

/-- Width of the date field. -/
def date_bytes_length : ProvenanceMarkResolution → Nat
  | .low => 2
  | .medium => 4
  | _ => 6

/-- Minimum message length: three links plus sequence and date fields. -/
def fixed_length (res : ProvenanceMarkResolution) : Nat :=
  res.link_length * 3 + res.seq_bytes_length + res.date_bytes_length

/-- Date serialization dispatch per resolution. -/
def serialize_date (res : ProvenanceMarkResolution) (date : Date) :
    Except Error (List Nat) :=
  match res with
  | .low => date.serialize_2_bytes
  | .medium => date.serialize_4_bytes
  | .quartile | .high => date.serialize_6_bytes

/-- Date deserialization dispatch, guarded on the slice length. -/
def deserialize_date (res : ProvenanceMarkResolution) (data : List Nat) :
    Except Error Date :=
  match res, data with
  | .low, [b0, b1] => Date.deserialize_2_bytes b0 b1
  | .medium, [b0, b1, b2, b3] => Date.deserialize_4_bytes [b0, b1, b2, b3]
  | .quartile, [b0, b1, b2, b3, b4, b5] =>
      Date.deserialize_6_bytes [b0, b1, b2, b3, b4, b5]
  | .high, [b0, b1, b2, b3, b4, b5] =>
      Date.deserialize_6_bytes [b0, b1, b2, b3, b4, b5]
  | _, _ => .error .resolutionError

/-- Sequence-number serialization: 2-byte big-endian at Low (bounded by
the 16-bit maximum), 4-byte big-endian otherwise. -/
def serialize_seq (res : ProvenanceMarkResolution) (seq : Nat) :
    Except Error (List Nat) :=
  match res.seq_bytes_length with
  | 2 =>
      if seq > 65535 then .error .resolutionError
      else .ok [(seq % 65536) / 256, seq % 256]
  | _ => .ok [(seq / 16777216) % 256, (seq / 65536) % 256,
              (seq / 256) % 256, seq % 256]

/-- Sequence-number deserialization, guarded on the slice length. -/
def deserialize_seq (res : ProvenanceMarkResolution) (data : List Nat) :
    Except Error Nat :=
  match res.seq_bytes_length, data with
  | 2, [b0, b1] => .ok (b0 * 256 + b1)
  | 4, [b0, b1, b2, b3] => .ok (((b0 * 256 + b1) * 256 + b2) * 256 + b3)
  | _, _ => .error .resolutionError

end ProvenanceMarkResolution

/-! ### The info payload

Modelled from the spec: the generic CBOR codec is an external collaborator
("encodes info as CBOR if present"; decoded info "MUST parse as well-formed
CBOR"). The model covers the canonical encodings of the scalar items the
engine stores, and a well-formedness checker that accepts exactly the byte
strings in which one item spans the whole input. A byte splits into the
major type (high 3 bits) and additional information (low 5 bits). -/

inductive CBORValue
  | uint (n : Nat)
  | byteString (b : List Nat)
  | textString (t : List Nat)
deriving DecidableEq, Repr

/-- Head of a CBOR item: major type plus minimally-sized argument. -/
def cborHead (major n : Nat) : List Nat :=
  if n < 24 then [major * 32 + n]
  else if n < 256 then [major * 32 + 24, n]
  else if n < 65536 then (major * 32 + 25) :: beBytes 2 n
  else if n < 4294967296 then (major * 32 + 26) :: beBytes 4 n
  else (major * 32 + 27) :: beBytes 8 n

/-- Canonical encoding of a CBOR item. -/
def cborEncode : CBORValue → List Nat
  | .uint n => cborHead 0 n
  | .byteString b => cborHead 2 b.length ++ b
  | .textString t => cborHead 3 t.length ++ t

/-- Width of the argument for an additional-information value. -/
def cborArgLen (ai : Nat) : Option Nat :=
  if ai < 24 then some 0
  else if ai = 24 then some 1
  else if ai = 25 then some 2
  else if ai = 26 then some 4
  else if ai = 27 then some 8
  else none

/-- Size in bytes of the single item starting the list, when well-formed. -/
def cborItemSize (bytes : List Nat) : Option Nat :=
  match bytes with
  | [] => none
  | h :: t =>
    let major := h / 32
    let ai := h % 32
    match cborArgLen ai with
    | none => none
    | some k =>
      if t.length < k then none
      else
        let arg := if ai < 24 then ai else beNat (t.take k)
        if major = 0 then some (1 + k)
        else if major = 2 ∨ major = 3 then
          if arg ≤ t.length - k then some (1 + k + arg) else none
        else none

/-- Well-formedness: one item spanning exactly the whole input. -/
def cborValid (bytes : List Nat) : Bool := cborItemSize bytes == some bytes.length

/-- Machine-size bound on a CBOR item: string lengths in the engine are
usize values, below 2^64. -/
def CBORValue.sized : CBORValue → Prop
  | .uint _ => True
  | .byteString b => b.length < 18446744073709551616
  | .textString t => t.length < 18446744073709551616

/-! ### Marks -/

structure ProvenanceMark where
  seq : Nat
  date : Date
  res : ProvenanceMarkResolution
  chain_id : List Nat
  key : List Nat
  hash : List Nat
  info_bytes : List Nat
  seq_bytes : List Nat
  date_bytes : List Nat
deriving DecidableEq, Repr

/-- The contiguous slice of a byte list from position `a` to `b`. -/
def listSlice (l : List Nat) (a b : Nat) : List Nat := (l.drop a).take (b - a)

namespace ProvenanceMark

/-- The hash commitment: the link-length prefix of SHA-256 over
key ‖ next_key ‖ chain_id ‖ seq_bytes ‖ date_bytes ‖ info_bytes. -/
def make_hash (res : ProvenanceMarkResolution)
    (key next_key chain_id seq_bytes date_bytes info_bytes : List Nat) :
    List Nat :=
  sha256Prefix
    (key ++ next_key ++ chain_id ++ seq_bytes ++ date_bytes ++ info_bytes)
    res.link_length

/-- The wire form: the plaintext key followed by the obfuscated payload
chain_id ‖ hash ‖ seq_bytes ‖ date_bytes ‖ info_bytes. -/
def message (m : ProvenanceMark) : List Nat :=
  m.key ++ obfuscate m.key
    (m.chain_id ++ m.hash ++ m.seq_bytes ++ m.date_bytes ++ m.info_bytes)

/-- The mark-equality rule (the PartialEq impl): same resolution and
identical wire message. -/
def eqv (a b : ProvenanceMark) : Bool :=
  a.res == b.res && a.message == b.message

/-- Construction (ProvenanceMark::new): validates the link lengths, encodes
seq and date canonically, re-decodes the encoded date, encodes info, and
computes the hash. -/
def new (res : ProvenanceMarkResolution) (key next_key chain_id : List Nat)
    (seq : Nat) (date : Date) (info : Option CBORValue) :
    Except Error ProvenanceMark :=
  if key.length ≠ res.link_length then
    .error (.invalidKeyLength res.link_length key.length)
  else if next_key.length ≠ res.link_length then
    .error (.invalidNextKeyLength res.link_length next_key.length)
  else if chain_id.length ≠ res.link_length then
    .error (.invalidChainIdLength res.link_length chain_id.length)
  else
    match res.serialize_date date with
    | .error e => .error e
    | .ok date_bytes =>
      match res.serialize_seq seq with
      | .error e => .error e
      | .ok seq_bytes =>
        match res.deserialize_date date_bytes with
        | .error e => .error e
        | .ok date2 =>
          let info_bytes := match info with
            | some v => cborEncode v
            | none => []
          let hash :=
            make_hash res key next_key chain_id seq_bytes date_bytes
              info_bytes
          .ok { res := res, key := key, hash := hash, chain_id := chain_id,
                seq_bytes := seq_bytes, date_bytes := date_bytes,
                info_bytes := info_bytes, seq := seq, date := date2 }

/-- Decoding (ProvenanceMark::from_message): length check, split off the
key, de-obfuscate, slice the payload fields, decode seq and date, check the
info bytes parse as CBOR when non-empty. -/
def from_message (res : ProvenanceMarkResolution) (message : List Nat) :
    Except Error ProvenanceMark :=
  if message.length < res.fixed_length then
    .error (.invalidMessageLength res.fixed_length message.length)
  else
    let L := res.link_length
    let key := listSlice message 0 L
    let payload := obfuscate key (message.drop L)
    let hash := listSlice payload L (2 * L)
    let chain_id := listSlice payload 0 L
    let seq_bytes := listSlice payload (2 * L) (2 * L + res.seq_bytes_length)
    match res.deserialize_seq seq_bytes with
    | .error e => .error e
    | .ok seq =>
      let date_bytes := listSlice payload (2 * L + res.seq_bytes_length)
        (2 * L + res.seq_bytes_length + res.date_bytes_length)
      match res.deserialize_date date_bytes with
      | .error e => .error e
      | .ok date =>
        let info_bytes :=
          payload.drop (2 * L + res.seq_bytes_length + res.date_bytes_length)
        if info_bytes ≠ [] ∧ cborValid info_bytes = false then
          .error .invalidInfoCbor
        else
          .ok { res := res, key := key, hash := hash, chain_id := chain_id,
                seq_bytes := seq_bytes, date_bytes := date_bytes,
                info_bytes := info_bytes, seq := seq, date := date }

/-- Genesis test: sequence zero and key equal to the chain id. -/
def is_genesis (m : ProvenanceMark) : Bool :=
  m.seq == 0 && m.key == m.chain_id

/-- The link predicate (ProvenanceMark::precedes). -/
def precedes (self next : ProvenanceMark) : Bool :=
  next.seq != 0 &&
  next.key != next.chain_id &&
  self.seq == next.seq - 1 &&
  decide (self.date.millis ≤ next.date.millis) &&
  self.hash == make_hash self.res self.key next.key self.chain_id
    self.seq_bytes self.date_bytes self.info_bytes

/-- Every adjacent pair of the list satisfies the link predicate
(marks.windows(2).all). -/
def chainPrecedes : List ProvenanceMark → Bool
  | a :: b :: rest => a.precedes b && chainPrecedes (b :: rest)
  | _ => true

/-- Whole-sequence validity (ProvenanceMark::is_sequence_valid). -/
def is_sequence_valid (marks : List ProvenanceMark) : Bool :=
  match marks with
  | [] => false
  | [_] => false
  | m :: rest =>
    if m.seq == 0 && !m.is_genesis then false
    else chainPrecedes (m :: rest)

end ProvenanceMark

/-! ### Validator -/

inductive ValidationIssue
  | hashMismatch (expected actual : List Nat)
  | keyMismatch
  | sequenceGap (expected actual : Nat)
  | dateOrdering (previous next : Int)
  | nonGenesisAtZero
  | invalidGenesisKey
deriving DecidableEq, Repr

structure FlaggedMark where
  mark : ProvenanceMark
  issues : List ValidationIssue
deriving DecidableEq, Repr

structure SequenceReport where
  start_seq : Nat
  end_seq : Nat
  marks : List FlaggedMark
deriving DecidableEq, Repr

structure ChainReport where
  chain_id : List Nat
  has_genesis : Bool
  marks : List ProvenanceMark
  sequences : List SequenceReport
deriving DecidableEq, Repr

structure ValidationReport where
  marks : List ProvenanceMark
  chains : List ChainReport
deriving DecidableEq, Repr

/-- Modelled from the spec: the diagnostic link predicate `precedes_opt`,
called by validate.rs but absent from the sources. It succeeds exactly when
`precedes` holds, and otherwise reports the first failing check using the
issue kinds of the spec (the spec leaves the order of the checks to the
implementation as long as it is deterministic). -/
def ProvenanceMark.precedes_opt (self next : ProvenanceMark) :
    Except ValidationIssue Unit :=
  if next.seq ≠ self.seq + 1 then
    .error (.sequenceGap (self.seq + 1) next.seq)
  else if next.seq = 0 then .error .nonGenesisAtZero
  else if next.key = next.chain_id then .error .invalidGenesisKey
  else if next.date.millis < self.date.millis then
    .error (.dateOrdering self.date.millis next.date.millis)
  else
    let expected := ProvenanceMark.make_hash self.res self.key next.key
      self.chain_id self.seq_bytes self.date_bytes self.info_bytes
    if self.hash ≠ expected then .error (.hashMismatch expected self.hash)
    else .ok ()

/-- Deduplication walk: keep a mark when no already-seen mark equals it
under the mark-equality rule (the HashSet filter in validate). -/
def dedupGo (seen : List ProvenanceMark) :
    List ProvenanceMark → List ProvenanceMark
  | [] => []
  | m :: rest =>
    if seen.any (fun s => s.eqv m) then dedupGo seen rest
    else m :: dedupGo (m :: seen) rest

/-- Remove exact duplicates, keeping first occurrences in order. -/
def dedupMarks (marks : List ProvenanceMark) : List ProvenanceMark :=
  dedupGo [] marks

/-- Append a mark to the bin holding its chain id, creating the bin at the
end on first sight (the HashMap entry call in validate; the bin order is
irrelevant because the chains are sorted afterwards). -/
def binInsert (cid : List Nat) (m : ProvenanceMark) :
    List (List Nat × List ProvenanceMark) →
    List (List Nat × List ProvenanceMark)
  | [] => [(cid, [m])]
  | (k, ms) :: rest =>
    if k = cid then (k, ms ++ [m]) :: rest
    else (k, ms) :: binInsert cid m rest

/-- Bin marks by chain id, preserving per-bin insertion order. -/
def binByChain (marks : List ProvenanceMark) :
    List (List Nat × List ProvenanceMark) :=
  marks.foldl (fun bins m => binInsert m.chain_id m bins) []

/-- Lexicographic strict order on byte lists (the Ord impl of byte
vectors): a proper prefix sorts first. -/
def bytesLt : List Nat → List Nat → Bool
  | [], [] => false
  | [], _ :: _ => true
  | _ :: _, [] => false
  | a :: as, b :: bs =>
    if a < b then true else if b < a then false else bytesLt as bs

/-- The matching lexicographic reflexive order. -/
def bytesLe (a b : List Nat) : Bool := !(bytesLt b a)

/-- Wrap a run of marks as a sequence report with its first and last
sequence numbers. -/
def create_sequence_report (marks : List FlaggedMark) : SequenceReport :=
  { start_seq := (marks.head?.map (fun f => f.mark.seq)).getD 0,
    end_seq := (marks.getLast?.map (fun f => f.mark.seq)).getD 0,
    marks := marks }

/-- Walk a sorted chain, closing the current run whenever the diagnostic
link predicate reports an issue; the failing mark starts the next run,
carrying the issue. -/
def sequenceBinsGo (prev : ProvenanceMark) (current : List FlaggedMark) :
    List ProvenanceMark → List SequenceReport
  | [] => [create_sequence_report current]
  | m :: rest =>
    match prev.precedes_opt m with
    | .ok _ => sequenceBinsGo m (current ++ [⟨m, []⟩]) rest
    | .error issue =>
        create_sequence_report current ::
          sequenceBinsGo m [⟨m, [issue]⟩] rest

/-- Segment a chain into maximal linked runs (build_sequence_bins). -/
def build_sequence_bins : List ProvenanceMark → List SequenceReport
  | [] => []
  | m :: rest => sequenceBinsGo m [⟨m, []⟩] rest

/-- The multi-mark validator (ValidationReport::validate): deduplicate,
bin by chain id, sort each chain by sequence number, flag the genesis
state, segment into runs, and sort the chains by chain id. -/
def ValidationReport.validate (marks : List ProvenanceMark) :
    ValidationReport :=
  let deduplicated := dedupMarks marks
  let bins := binByChain deduplicated
  let chains := bins.map (fun bin =>
    let chain_marks :=
      List.insertionSort (fun a b : ProvenanceMark => a.seq ≤ b.seq) bin.2
    ({ chain_id := bin.1,
       has_genesis := match chain_marks with
         | [] => false
         | m :: _ => m.seq == 0 && m.is_genesis,
       marks := chain_marks,
       sequences := build_sequence_bins chain_marks } : ChainReport))
  { marks := deduplicated,
    chains := List.insertionSort
      (fun a b : ChainReport => bytesLe a.chain_id b.chain_id = true) chains }


/-! ### Concrete witness data -/

/-- A minimal mark used to instantiate universally quantified theorems. -/
def markZero : ProvenanceMark :=
  { seq := 0, date := ⟨0⟩, res := .low, chain_id := [], key := [],
    hash := [], info_bytes := [], seq_bytes := [], date_bytes := [] }

/-- First mark of a two-mark chain that starts at sequence number 1: its
hash commits to the key of the second mark, so the pair is linked even
though no genesis mark is present. -/
def c5MarkA : ProvenanceMark :=
  { seq := 1, date := dateOfYmd 2023 6 20, res := .low,
    chain_id := [3, 3, 3, 3], key := [1, 1, 1, 1],
    hash := [0x98, 0xec, 0x10, 0x3f], info_bytes := [],
    seq_bytes := [0, 1], date_bytes := [0, 0xd4] }

/-- Second mark of the chain starting at sequence number 1. -/
def c5MarkB : ProvenanceMark :=
  { seq := 2, date := dateOfYmd 2023 6 20, res := .low,
    chain_id := [3, 3, 3, 3], key := [2, 2, 2, 2],
    hash := [0, 0, 0, 0], info_bytes := [],
    seq_bytes := [0, 2], date_bytes := [0, 0xd4] }

/-- A concrete successful construction at Low resolution. -/
def c1markResult : Except Error ProvenanceMark :=
  ProvenanceMark.new .low [1, 1, 1, 1] [2, 2, 2, 2] [1, 1, 1, 1] 0
    (dateOfYmd 2023 6 20) none

/-- The mark built by the concrete construction. -/
def c1mark : ProvenanceMark :=
  match c1markResult with
  | .ok m => m
  | .error _ => markZero

/-! ## Theorems

Verification of the civil-calendar embedding: the era-local analytic
proofs, their bridges to the Int-valued day-number conversions, and the
two top-level facts used by the date codecs. -/

theorem yCheckAll_true : yCheckAll = true := by decide

theorem yCheck_true (y : Nat) (h : y ≤ 399) : yCheck y = true := by
  have hall : yCheckAll = true := yCheckAll_true
  unfold yCheckAll at hall
  rw [List.all_eq_true] at hall
  have h1 := hall (y / 20) (by rw [List.mem_range]; omega)
  rw [yCheckRange, List.all_eq_true] at h1
  have h2 := h1 (y % 20) (by rw [List.mem_range]; omega)
  have : 20 * (y / 20) + y % 20 = y := by omega
  rw [this] at h2
  exact h2

theorem gFun_mono_step (x : Nat) : gFun x ≤ gFun (x + 1) := by
  unfold gFun
  omega

theorem gFun_mono {a b : Nat} (h : a ≤ b) : gFun a ≤ gFun b := by
  induction b with
  | zero =>
    have ha : a = 0 := by omega
    subst ha; exact le_refl _
  | succ n ih =>
    rcases Nat.lt_or_ge a (n + 1) with h2 | h2
    · exact le_trans (ih (by omega)) (gFun_mono_step n)
    · have : a = n + 1 := by omega
      subst this; exact le_refl _

theorem yoeOf_mono {a b : Nat} (h : a ≤ b) : yoeOf a ≤ yoeOf b :=
  Nat.div_le_div_right (gFun_mono h)

theorem yoeOf_le (doe : Nat) (h : doe < 146097) : yoeOf doe ≤ 399 := by
  unfold yoeOf gFun
  omega

theorem yCheck_parts (y : Nat) (h : y ≤ 399) :
    yoeOf (yearStart y) = y ∧ yoeOf (yearEnd y) = y := by
  have := yCheck_true y h
  unfold yCheck at this
  rw [Bool.and_eq_true, beq_iff_eq, beq_iff_eq] at this
  exact this

/-- Position of a day within its year of era. -/
theorem year_sandwich (doe : Nat) (h : doe < 146097) :
    yearStart (yoeOf doe) ≤ doe ∧ doe ≤ yearEnd (yoeOf doe) := by
  set y := yoeOf doe with hy
  have hy399 : y ≤ 399 := yoeOf_le doe h
  constructor
  · by_contra hlt
    push_neg at hlt
    have hy1 : 1 ≤ y := by
      by_contra h0
      push_neg at h0
      interval_cases y
      · simp [yearStart] at hlt
    have hyy : y - 1 + 1 = y := by omega
    have hstep : yearEnd (y - 1) = yearStart y - 1 := by
      unfold yearEnd
      have hne : ¬(y - 1 = 399) := by omega
      rw [if_neg hne, hyy]
    have hle : doe ≤ yearEnd (y - 1) := by
      rw [hstep]; omega
    have := yoeOf_mono hle
    rw [(yCheck_parts (y - 1) (by omega)).2] at this
    omega
  · by_contra hgt
    push_neg at hgt
    have hImp : y ≠ 399 := by
      intro h399
      rw [h399] at hgt
      unfold yearEnd at hgt
      simp at hgt
      omega
    have hge : yearStart (y + 1) ≤ doe := by
      unfold yearEnd at hgt
      rw [if_neg hImp] at hgt
      have hpos : 0 < yearStart (y + 1) := by unfold yearStart; omega
      omega
    have := yoeOf_mono hge
    rw [(yCheck_parts (y + 1) (by omega)).1] at this
    omega

/-- Year lengths: at most 366 days (day offsets at most 365). -/
theorem yearEnd_sub (y : Nat) (h : y ≤ 399) :
    yearEnd y - yearStart y ≤ 365 ∧ 364 ≤ yearEnd y - yearStart y := by
  unfold yearEnd yearStart
  by_cases h399 : y = 399
  · subst h399; decide
  · rw [if_neg h399]; omega

/-- The last day of the era belongs to year 399. -/
theorem day_in_year (doe : Nat) (h : doe < 146097) :
    doe - yearStart (yoeOf doe) ≤ 365 := by
  have hs := year_sandwich doe h
  have hy := yoeOf_le doe h
  have := yearEnd_sub (yoeOf doe) hy
  omega

/-- Month consolidation: the month pointer of a recomposed day offset. -/
theorem mp_extract (mp d : Nat) (hmp : mp ≤ 11) (hd1 : 1 ≤ d)
    (hd2 : d ≤ (153 * (mp + 1) + 2) / 5 - (153 * mp + 2) / 5) :
    (5 * ((153 * mp + 2) / 5 + d - 1) + 2) / 153 = mp := by
  interval_cases mp <;> omega

/-- In-month facts of the day-offset decomposition. -/
theorem md_facts (doy : Nat) (h : doy ≤ 365) :
    (5 * doy + 2) / 153 ≤ 11 ∧
    (153 * ((5 * doy + 2) / 153) + 2) / 5 ≤ doy ∧
    1 ≤ doy - (153 * ((5 * doy + 2) / 153) + 2) / 5 + 1 ∧
    doy - (153 * ((5 * doy + 2) / 153) + 2) / 5 + 1 ≤ 31 ∧
    (doy - (153 * ((5 * doy + 2) / 153) + 2) / 5 + 1) - 1
      + (153 * ((5 * doy + 2) / 153) + 2) / 5 = doy := by
  omega

theorem monthDay_facts (doy : Nat) (h : doy ≤ 365) :
    1 ≤ (monthDay doy).1 ∧ (monthDay doy).1 ≤ 12 ∧
    1 ≤ (monthDay doy).2 ∧ (monthDay doy).2 ≤ 31 ∧
    (153 * mpOf (monthDay doy).1 + 2) / 5 + (monthDay doy).2 - 1 = doy ∧
    ((monthDay doy).1 ≤ 2 ↔ 10 ≤ (5 * doy + 2) / 153) ∧
    mpOf (monthDay doy).1 = (5 * doy + 2) / 153 := by
  unfold monthDay mpOf
  dsimp only
  by_cases hmp : (5 * doy + 2) / 153 < 10
  · rw [if_pos hmp]
    rw [if_pos (by omega : (5 * doy + 2) / 153 + 3 > 2)]
    omega
  · rw [if_neg hmp]
    rw [if_neg (by omega : ¬((5 * doy + 2) / 153 - 9 > 2))]
    omega

/-- Day bound inside each month. -/
theorem monthDay_d_bound (doy : Nat) (h : doy ≤ 365) :
    (11 ≤ (5 * doy + 2) / 153 →
      (monthDay doy).2 = doy - 336) ∧
    ((5 * doy + 2) / 153 < 11 →
      (monthDay doy).2 ≤
        (153 * ((5 * doy + 2) / 153 + 1) + 2) / 5
          - (153 * ((5 * doy + 2) / 153) + 2) / 5) := by
  unfold monthDay
  dsimp only
  constructor
  · intro hmp
    have h11 : (5 * doy + 2) / 153 = 11 := by omega
    rw [h11]
    omega
  · intro hmp
    omega

/-- Day numbers within a March-based year have that year of era. -/
theorem yoeOf_unique (y2 X : Nat) (hy : y2 ≤ 399) (h1 : yearStart y2 ≤ X)
    (h2 : X ≤ yearEnd y2) : yoeOf X = y2 := by
  have ha := yoeOf_mono h1
  have hb := yoeOf_mono h2
  have hc := (yCheck_parts y2 hy).1
  have hd := (yCheck_parts y2 hy).2
  omega

/-- Evaluate civilOfDoe at an in-year position. -/
theorem civilOfDoe_at (y2 doy : Nat) (hy : y2 ≤ 399)
    (hdoy : doy ≤ yearEnd y2 - yearStart y2) :
    civilOfDoe (yearStart y2 + doy) =
      (if (monthDay doy).1 ≤ 2 then y2 + 1 else y2,
       (monthDay doy).1, (monthDay doy).2) := by
  have hE := yearEnd_sub y2 hy
  have hu : yoeOf (yearStart y2 + doy) = y2 :=
    yoeOf_unique y2 _ hy (by omega) (by omega)
  unfold civilOfDoe
  dsimp only
  rw [hu]
  have heq : yearStart y2 + doy - yearStart y2 = doy := by omega
  rw [heq]

/-- First-of-month day numbers. -/
theorem doeOfCivil_one (y m : Nat) :
    doeOfCivil y m 1 = yearStart y + (153 * mpOf m + 2) / 5 := by
  unfold doeOfCivil
  omega

/-- yearStart grows by at least a year. -/
theorem yearStart_strict (y : Nat) : yearStart y + 365 ≤ yearStart (y + 1) := by
  unfold yearStart
  omega

/-- Day component of an in-year position below the last day slot. -/
theorem lastDay_same_year (y : Nat) (hy : y ≤ 399) (doyD : Nat)
    (hb : doyD ≤ 364) :
    (civilOfDoe (yearStart y + doyD)).2.2 = (monthDay doyD).2 := by
  have hE := yearEnd_sub y hy
  rw [civilOfDoe_at y doyD hy (by omega)]

/-- The last-day-of-month computation in closed form. -/
theorem natLastDay_eq (y m : Nat) (hm1 : 1 ≤ m) (hm2 : m ≤ 12)
    (hy1 : m ≤ 2 → 1 ≤ y) (hy2 : (if m ≤ 2 then y - 1 else y) ≤ 399) :
    natLastDay y m =
      if mpOf m = 11 then (yearEnd (y - 1) - yearStart (y - 1)) - 336
      else (153 * (mpOf m + 1) + 2) / 5 - (153 * mpOf m + 2) / 5 := by
  interval_cases m
  · -- January
    have hy2x : y - 1 ≤ 399 := by simpa using hy2
    show (civilOfDoe ((if 400 ≤ y - 1 then 146097 else doeOfCivil (y - 1) 2 1)
      - 1)).2.2 = _
    rw [if_neg (by omega), doeOfCivil_one,
      show (153 * mpOf 2 + 2) / 5 = 337 from by decide,
      show yearStart (y - 1) + 337 - 1 = yearStart (y - 1) + 336 from by omega,
      lastDay_same_year (y - 1) hy2x 336 (by omega)]
    rw [if_neg (by decide)]
    decide
  · -- February
    have hy2x : y - 1 ≤ 399 := by simpa using hy2
    have hy1x : 1 ≤ y := hy1 (by omega)
    by_cases hy400 : 400 ≤ y
    · have h400 : y = 400 := by omega
      subst h400
      show (civilOfDoe ((if 400 ≤ (400 : Nat) then 146097
        else doeOfCivil 400 3 1) - 1)).2.2 = _
      rw [if_pos (by omega)]
      decide
    · show (civilOfDoe ((if 400 ≤ y then 146097 else doeOfCivil y 3 1)
        - 1)).2.2 = _
      rw [if_neg hy400, doeOfCivil_one,
        show (153 * mpOf 3 + 2) / 5 = 0 from by decide]
      have hEe : yearEnd (y - 1) = yearStart y - 1 := by
        unfold yearEnd
        rw [if_neg (by omega : ¬(y - 1 = 399)), show y - 1 + 1 = y from by omega]
      have hmono := yearStart_strict (y - 1)
      rw [show y - 1 + 1 = y from by omega] at hmono
      have hE364 := yearEnd_sub (y - 1) hy2x
      rw [show yearStart y + 0 - 1 =
          yearStart (y - 1) + (yearEnd (y - 1) - yearStart (y - 1)) from by omega,
        civilOfDoe_at (y - 1) _ hy2x (le_refl _)]
      have hd := (monthDay_d_bound (yearEnd (y - 1) - yearStart (y - 1))
        (by omega)).1 (by omega)
      rw [if_pos (by decide : mpOf 2 = 11), hd]
  · -- March
    have hyk : y ≤ 399 := by simpa using hy2
    show (civilOfDoe ((if 400 ≤ y then 146097 else doeOfCivil y 4 1)
      - 1)).2.2 = _
    rw [if_neg (by omega), doeOfCivil_one,
      show (153 * mpOf 4 + 2) / 5 = 31 from by decide,
      show yearStart y + 31 - 1 = yearStart y + 30 from by omega,
      lastDay_same_year y hyk 30 (by omega)]
    rw [if_neg (by decide)]
    decide
  · -- April
    have hyk : y ≤ 399 := by simpa using hy2
    show (civilOfDoe ((if 400 ≤ y then 146097 else doeOfCivil y 5 1)
      - 1)).2.2 = _
    rw [if_neg (by omega), doeOfCivil_one,
      show (153 * mpOf 5 + 2) / 5 = 61 from by decide,
      show yearStart y + 61 - 1 = yearStart y + 60 from by omega,
      lastDay_same_year y hyk 60 (by omega)]
    rw [if_neg (by decide)]
    decide
  · -- May
    have hyk : y ≤ 399 := by simpa using hy2
    show (civilOfDoe ((if 400 ≤ y then 146097 else doeOfCivil y 6 1)
      - 1)).2.2 = _
    rw [if_neg (by omega), doeOfCivil_one,
      show (153 * mpOf 6 + 2) / 5 = 92 from by decide,
      show yearStart y + 92 - 1 = yearStart y + 91 from by omega,
      lastDay_same_year y hyk 91 (by omega)]
    rw [if_neg (by decide)]
    decide
  · -- June
    have hyk : y ≤ 399 := by simpa using hy2
    show (civilOfDoe ((if 400 ≤ y then 146097 else doeOfCivil y 7 1)
      - 1)).2.2 = _
    rw [if_neg (by omega), doeOfCivil_one,
      show (153 * mpOf 7 + 2) / 5 = 122 from by decide,
      show yearStart y + 122 - 1 = yearStart y + 121 from by omega,
      lastDay_same_year y hyk 121 (by omega)]
    rw [if_neg (by decide)]
    decide
  · -- July
    have hyk : y ≤ 399 := by simpa using hy2
    show (civilOfDoe ((if 400 ≤ y then 146097 else doeOfCivil y 8 1)
      - 1)).2.2 = _
    rw [if_neg (by omega), doeOfCivil_one,
      show (153 * mpOf 8 + 2) / 5 = 153 from by decide,
      show yearStart y + 153 - 1 = yearStart y + 152 from by omega,
      lastDay_same_year y hyk 152 (by omega)]
    rw [if_neg (by decide)]
    decide
  · -- August
    have hyk : y ≤ 399 := by simpa using hy2
    show (civilOfDoe ((if 400 ≤ y then 146097 else doeOfCivil y 9 1)
      - 1)).2.2 = _
    rw [if_neg (by omega), doeOfCivil_one,
      show (153 * mpOf 9 + 2) / 5 = 184 from by decide,
      show yearStart y + 184 - 1 = yearStart y + 183 from by omega,
      lastDay_same_year y hyk 183 (by omega)]
    rw [if_neg (by decide)]
    decide
  · -- September
    have hyk : y ≤ 399 := by simpa using hy2
    show (civilOfDoe ((if 400 ≤ y then 146097 else doeOfCivil y 10 1)
      - 1)).2.2 = _
    rw [if_neg (by omega), doeOfCivil_one,
      show (153 * mpOf 10 + 2) / 5 = 214 from by decide,
      show yearStart y + 214 - 1 = yearStart y + 213 from by omega,
      lastDay_same_year y hyk 213 (by omega)]
    rw [if_neg (by decide)]
    decide
  · -- October
    have hyk : y ≤ 399 := by simpa using hy2
    show (civilOfDoe ((if 400 ≤ y then 146097 else doeOfCivil y 11 1)
      - 1)).2.2 = _
    rw [if_neg (by omega), doeOfCivil_one,
      show (153 * mpOf 11 + 2) / 5 = 245 from by decide,
      show yearStart y + 245 - 1 = yearStart y + 244 from by omega,
      lastDay_same_year y hyk 244 (by omega)]
    rw [if_neg (by decide)]
    decide
  · -- November
    have hyk : y ≤ 399 := by simpa using hy2
    show (civilOfDoe ((if 400 ≤ y then 146097 else doeOfCivil y 12 1)
      - 1)).2.2 = _
    rw [if_neg (by omega), doeOfCivil_one,
      show (153 * mpOf 12 + 2) / 5 = 275 from by decide,
      show yearStart y + 275 - 1 = yearStart y + 274 from by omega,
      lastDay_same_year y hyk 274 (by omega)]
    rw [if_neg (by decide)]
    decide
  · -- December
    have hyk : y ≤ 399 := by simpa using hy2
    show (civilOfDoe ((if 400 ≤ y then 146097 else doeOfCivil y 1 1)
      - 1)).2.2 = _
    rw [if_neg (by omega), doeOfCivil_one,
      show (153 * mpOf 1 + 2) / 5 = 306 from by decide,
      show yearStart y + 306 - 1 = yearStart y + 305 from by omega,
      lastDay_same_year y hyk 305 (by omega)]
    rw [if_neg (by decide)]
    decide

/-- Era days bound per year. -/
theorem yearEnd_le (y2 : Nat) (h : y2 ≤ 399) : yearEnd y2 ≤ 146096 := by
  unfold yearEnd yearStart
  by_cases h399 : y2 = 399
  · subst h399; decide
  · rw [if_neg h399]; omega

/-- Main correctness of the civil decomposition: the components are a
well-formed date, they recompose to the same day number, and the day is
within its month. -/
theorem civilOfDoe_correct (doe : Nat) (h : doe < 146097) :
    1 ≤ (civilOfDoe doe).2.1 ∧ (civilOfDoe doe).2.1 ≤ 12 ∧
    1 ≤ (civilOfDoe doe).2.2 ∧ (civilOfDoe doe).2.2 ≤ 31 ∧
    ((civilOfDoe doe).2.1 ≤ 2 → 1 ≤ (civilOfDoe doe).1) ∧
    (civilOfDoe doe).1 ≤ 400 ∧
    (¬((civilOfDoe doe).2.1 ≤ 2) → (civilOfDoe doe).1 ≤ 399) ∧
    doeOfCivil (if (civilOfDoe doe).2.1 ≤ 2 then (civilOfDoe doe).1 - 1
      else (civilOfDoe doe).1) (civilOfDoe doe).2.1 (civilOfDoe doe).2.2
      = doe ∧
    (civilOfDoe doe).2.2 ≤ natLastDay (civilOfDoe doe).1 (civilOfDoe doe).2.1
    := by
  obtain ⟨hs1, hs2⟩ := year_sandwich doe h
  have hy := yoeOf_le doe h
  have hdoy := day_in_year doe h
  have hdd : doe = yearStart (yoeOf doe) + (doe - yearStart (yoeOf doe)) := by
    omega
  have hc : civilOfDoe doe =
      (if (monthDay (doe - yearStart (yoeOf doe))).1 ≤ 2 then yoeOf doe + 1
        else yoeOf doe,
       (monthDay (doe - yearStart (yoeOf doe))).1,
       (monthDay (doe - yearStart (yoeOf doe))).2) := by
    conv_lhs => rw [hdd]
    exact civilOfDoe_at (yoeOf doe) _ hy (by omega)
  obtain ⟨hm1, hm2, hd1, hd31, hinv, hm2iff, hmpeq⟩ := monthDay_facts _ hdoy
  obtain ⟨hfeb, hnotfeb⟩ := monthDay_d_bound _ hdoy
  rw [hc]
  dsimp only
  by_cases hM : (monthDay (doe - yearStart (yoeOf doe))).1 ≤ 2
  · rw [if_pos hM, if_pos hM]
    have hrec : doeOfCivil (yoeOf doe + 1 - 1)
        (monthDay (doe - yearStart (yoeOf doe))).1
        (monthDay (doe - yearStart (yoeOf doe))).2 = doe := by
      rw [show yoeOf doe + 1 - 1 = yoeOf doe from by omega]
      unfold doeOfCivil
      omega
    refine ⟨hm1, hm2, hd1, hd31, fun _ => by omega, by omega, fun hn => absurd hM hn, hrec, ?_⟩
    rw [natLastDay_eq (yoeOf doe + 1)
      (monthDay (doe - yearStart (yoeOf doe))).1 hm1 hm2 (fun _ => by omega)
      (by rw [if_pos hM]; omega)]
    have hmp1011 : mpOf (monthDay (doe - yearStart (yoeOf doe))).1 = 10 ∨
        mpOf (monthDay (doe - yearStart (yoeOf doe))).1 = 11 := by
      rw [hmpeq]
      rw [hm2iff] at hM
      omega
    by_cases hmp11 : mpOf (monthDay (doe - yearStart (yoeOf doe))).1 = 11
    · rw [if_pos hmp11,
        show yoeOf doe + 1 - 1 = yoeOf doe from by omega]
      have h11 : 11 ≤ (5 * (doe - yearStart (yoeOf doe)) + 2) / 153 := by
        rw [← hmpeq, hmp11]
      rw [hfeb h11]
      omega
    · rw [if_neg hmp11]
      have hlt : (5 * (doe - yearStart (yoeOf doe)) + 2) / 153 < 11 := by
        rw [← hmpeq]
        omega
      have := hnotfeb hlt
      rw [hmpeq]
      omega
  · rw [if_neg hM, if_neg hM]
    have hy399 : yoeOf doe ≤ 399 := hy
    have hrec : doeOfCivil (yoeOf doe)
        (monthDay (doe - yearStart (yoeOf doe))).1
        (monthDay (doe - yearStart (yoeOf doe))).2 = doe := by
      unfold doeOfCivil
      omega
    refine ⟨hm1, hm2, hd1, hd31, fun hcon => absurd hcon hM, by omega,
      fun _ => hy399, hrec, ?_⟩
    rw [natLastDay_eq (yoeOf doe)
      (monthDay (doe - yearStart (yoeOf doe))).1 hm1 hm2
      (fun hcon => absurd hcon hM) (by rw [if_neg hM]; omega)]
    have hmple : mpOf (monthDay (doe - yearStart (yoeOf doe))).1 ≤ 9 := by
      rw [hmpeq]
      rw [hm2iff] at hM
      omega
    rw [if_neg (by omega)]
    have hlt : (5 * (doe - yearStart (yoeOf doe)) + 2) / 153 < 11 := by
      rw [← hmpeq]
      omega
    have := hnotfeb hlt
    rw [hmpeq]
    omega

/-- Recomposition of a valid era-local civil date. -/
theorem natDays_correct (y m d : Nat) (hm1 : 1 ≤ m) (hm2 : m ≤ 12)
    (hd1 : 1 ≤ d) (hy1 : m ≤ 2 → 1 ≤ y)
    (hy2 : (if m ≤ 2 then y - 1 else y) ≤ 399)
    (hd2 : d ≤ natLastDay y m) :
    civilOfDoe (doeOfCivil (if m ≤ 2 then y - 1 else y) m d) = (y, m, d) ∧
    doeOfCivil (if m ≤ 2 then y - 1 else y) m d < 146097 := by
  rw [natLastDay_eq y m hm1 hm2 hy1 hy2] at hd2
  have hE := yearEnd_sub (if m ≤ 2 then y - 1 else y) hy2
  have hEnd := yearEnd_le (if m ≤ 2 then y - 1 else y) hy2
  have hdoe : doeOfCivil (if m ≤ 2 then y - 1 else y) m d =
      yearStart (if m ≤ 2 then y - 1 else y) +
        ((153 * mpOf m + 2) / 5 + d - 1) := rfl
  by_cases hmp11 : mpOf m = 11
  · -- February
    have hm2eq : m = 2 := by
      unfold mpOf at hmp11
      by_cases hgt : m > 2
      · rw [if_pos hgt] at hmp11; omega
      · rw [if_neg hgt] at hmp11; omega
    subst hm2eq
    rw [if_pos (by omega)] at hd2 hy2 hE hEnd hdoe ⊢
    have hms : (153 * mpOf 2 + 2) / 5 = 337 := by decide
    rw [hms] at hdoe
    have hdoy : 337 + d - 1 ≤ yearEnd (y - 1) - yearStart (y - 1) := by omega
    rw [hdoe, civilOfDoe_at (y - 1) _ hy2 hdoy]
    have hb : 337 ≤ 337 + d - 1 ∧ 337 + d - 1 ≤ 365 := by omega
    have h11 : (5 * (337 + d - 1) + 2) / 153 = 11 := by omega
    have hmd : monthDay (337 + d - 1) = (2, d) := by
      unfold monthDay
      dsimp only
      rw [h11]
      norm_num
      omega
    rw [hmd]
    constructor
    · have hyy : y - 1 + 1 = y := by omega
      norm_num [hyy]
    · omega
  · -- all other months
    have hmple : mpOf m ≤ 10 := by
      unfold mpOf
      by_cases hgt : m > 2
      · rw [if_pos hgt]; omega
      · rw [if_neg hgt]
        unfold mpOf at hmp11
        rw [if_neg hgt] at hmp11
        omega
    rw [if_neg hmp11] at hd2
    have hmsb : (153 * (mpOf m + 1) + 2) / 5 ≤ 337 ∧
        (153 * mpOf m + 2) / 5 + 1 ≤ (153 * (mpOf m + 1) + 2) / 5 := by omega
    have hdoy : (153 * mpOf m + 2) / 5 + d - 1 ≤
        yearEnd (if m ≤ 2 then y - 1 else y)
          - yearStart (if m ≤ 2 then y - 1 else y) := by omega
    rw [hdoe, civilOfDoe_at _ _ hy2 hdoy]
    have hmpx := mp_extract (mpOf m) d (by omega) hd1 hd2
    have hmd : monthDay ((153 * mpOf m + 2) / 5 + d - 1) = (m, d) := by
      unfold monthDay
      dsimp only
      rw [hmpx]
      rw [Prod.mk.injEq]
      refine ⟨?_, by omega⟩
      by_cases hgt : m > 2
      · have hmp3 : mpOf m = m - 3 := by unfold mpOf; rw [if_pos hgt]
        rw [hmp3, if_pos (by omega : m - 3 < 10)]
        omega
      · have hm1eq : m = 1 := by
          unfold mpOf at hmp11
          rw [if_neg hgt] at hmp11
          omega
        subst hm1eq
        rw [show mpOf 1 = 10 from by decide]
        norm_num
    rw [hmd]
    dsimp only
    constructor
    · by_cases hm2c : m ≤ 2
      · rw [if_pos hm2c, if_pos hm2c, show y - 1 + 1 = y from by omega]
      · rw [if_neg hm2c, if_neg hm2c]
    · omega

theorem daysFromCivil_local (y m d : Nat) (hy1 : m ≤ 2 → 1 ≤ y)
    (hy2 : (if m ≤ 2 then y - 1 else y) ≤ 399) :
    daysFromCivil (y : Int) m d =
      (doeOfCivil (if m ≤ 2 then y - 1 else y) m d : Int) - 719468 := by
  unfold daysFromCivil
  dsimp only
  have hcast : (if m ≤ 2 then (y : Int) - 1 else (y : Int)) =
      ((if m ≤ 2 then y - 1 else y : Nat) : Int) := by
    by_cases hm : m ≤ 2
    · rw [if_pos hm, if_pos hm]
      have := hy1 hm
      omega
    · rw [if_neg hm, if_neg hm]
  rw [hcast]
  have h0 : (0 : Int) ≤ ((if m ≤ 2 then y - 1 else y : Nat) : Int) := by
    positivity
  have h400 : ((if m ≤ 2 then y - 1 else y : Nat) : Int) < 400 := by
    omega
  rw [Int.ediv_eq_zero_of_lt h0 h400, Int.emod_eq_of_lt h0 h400]
  by_cases hm : m ≤ 2
  · rw [if_pos hm]
    simp [hm]
  · rw [if_neg hm]
    simp [hm]

theorem daysFromCivil_shift (y e : Int) (m d : Nat) :
    daysFromCivil (y + 400 * e) m d = daysFromCivil y m d + 146097 * e := by
  unfold daysFromCivil
  dsimp only
  have hif : (if m ≤ 2 then y + 400 * e - 1 else y + 400 * e) =
      (if m ≤ 2 then y - 1 else y) + e * 400 := by
    by_cases hm : m ≤ 2
    · rw [if_pos hm, if_pos hm]; ring
    · rw [if_neg hm, if_neg hm]; ring
  rw [hif, Int.add_mul_ediv_right _ _ (by norm_num : (400 : Int) ≠ 0),
    Int.add_mul_emod_self]
  ring

theorem civilFromDays_local (doe : Nat) (h : doe < 146097) :
    civilFromDays ((doe : Int) - 719468) =
      (((civilOfDoe doe).1 : Int), (civilOfDoe doe).2.1,
        (civilOfDoe doe).2.2) := by
  unfold civilFromDays
  dsimp only
  rw [show (doe : Int) - 719468 + 719468 = (doe : Int) from by ring]
  have h0 : (0 : Int) ≤ (doe : Int) := by positivity
  have hlt : (doe : Int) < 146097 := by omega
  rw [Int.ediv_eq_zero_of_lt h0 hlt, Int.emod_eq_of_lt h0 hlt]
  simp

theorem civilFromDays_shift (z e : Int) :
    civilFromDays (z + 146097 * e) =
      ((civilFromDays z).1 + 400 * e, (civilFromDays z).2.1,
        (civilFromDays z).2.2) := by
  unfold civilFromDays
  dsimp only
  rw [show z + 146097 * e + 719468 = (z + 719468) + e * 146097 from by ring,
    Int.add_mul_ediv_right _ _ (by norm_num : (146097 : Int) ≠ 0),
    Int.add_mul_emod_self]
  refine congrArg (fun w => (w, _, _)) ?_
  ring

theorem lastDayOfMonth_shift (y e : Int) (m : Nat) (_hm1 : 1 ≤ m)
    (_hm2 : m ≤ 12) :
    lastDayOfMonth (y + 400 * e) m = lastDayOfMonth y m := by
  unfold lastDayOfMonth
  dsimp only
  by_cases h12 : m = 12
  · rw [if_pos h12, if_pos h12,
      show y + 400 * e + 1 = (y + 1) + 400 * e from by ring,
      daysFromCivil_shift,
      show daysFromCivil (y + 1) 1 1 + 146097 * e - 1 =
        (daysFromCivil (y + 1) 1 1 - 1) + 146097 * e from by ring,
      civilFromDays_shift]
  · rw [if_neg h12, if_neg h12, daysFromCivil_shift,
      show daysFromCivil y (m + 1) 1 + 146097 * e - 1 =
        (daysFromCivil y (m + 1) 1 - 1) + 146097 * e from by ring,
      civilFromDays_shift]

theorem yearStart_le (y : Nat) (h : y ≤ 399) : yearStart y ≤ 145731 := by
  unfold yearStart
  omega

/-- The last-day-of-month function agrees with its era-local version. -/
theorem lastDayOfMonth_local (y m : Nat) (hm1 : 1 ≤ m) (hm2 : m ≤ 12)
    (hy1 : m ≤ 2 → 1 ≤ y) (hy2 : (if m ≤ 2 then y - 1 else y) ≤ 399) :
    lastDayOfMonth (y : Int) m = natLastDay y m := by
  unfold lastDayOfMonth
  dsimp only
  by_cases h12 : m = 12
  · subst h12
    have hy399 : y ≤ 399 := by simpa using hy2
    rw [if_pos rfl,
      show (y : Int) + 1 = ((y + 1 : Nat) : Int) from by push_cast; ring,
      daysFromCivil_local (y + 1) 1 1 (fun _ => by omega)
        (by simpa using hy399)]
    have hnf : doeOfCivil (if (1 : Nat) ≤ 2 then y + 1 - 1 else y + 1) 1 1 =
        yearStart y + 306 := by
      rw [if_pos (by omega), show y + 1 - 1 = y from by omega, doeOfCivil_one,
        show (153 * mpOf 1 + 2) / 5 = 306 from by decide]
    rw [hnf]
    have hys := yearStart_le y hy399
    rw [show (↑(yearStart y + 306) : Int) - 719468 - 1 =
        ((yearStart y + 305 : Nat) : Int) - 719468 from by push_cast; ring,
      civilFromDays_local (yearStart y + 305) (by omega)]
    show _ = natLastDay y 12
    unfold natLastDay
    dsimp only
    rw [if_pos rfl]
    dsimp only
    rw [if_pos (by omega : (1:Nat) ≤ 2),
      show y + 1 - 1 = y from by omega,
      if_neg (by omega : ¬(400 ≤ y)), doeOfCivil_one,
      show (153 * mpOf 1 + 2) / 5 = 306 from by decide,
      show yearStart y + 306 - 1 = yearStart y + 305 from by omega]
  · rw [if_neg h12]
    by_cases hsp : m = 2 ∧ y = 400
    · obtain ⟨hm2eq, hy400⟩ := hsp
      subst hm2eq
      subst hy400
      have hdf : daysFromCivil (((400 : Nat) : Int)) (2 + 1) 1 =
          ((146097 : Nat) : Int) - 719468 := by
        unfold daysFromCivil
        dsimp only
        rw [if_neg (by omega : ¬(2 + 1 : Nat) ≤ 2)]
        decide
      rw [hdf,
        show ((146097 : Nat) : Int) - 719468 - 1 =
          ((146096 : Nat) : Int) - 719468 from by omega,
        civilFromDays_local 146096 (by omega)]
      show _ = natLastDay 400 2
      unfold natLastDay
      dsimp only
      rw [if_neg (by omega : ¬(2:Nat) = 12)]
      dsimp only
      rw [if_neg (by omega : ¬(2 + 1 : Nat) ≤ 2),
        if_pos (by omega : 400 ≤ 400)]
    · -- next month within reach of the era-local computation
      have hyn1 : m + 1 ≤ 2 → 1 ≤ y := by omega
      have hyn2 : (if m + 1 ≤ 2 then y - 1 else y) ≤ 399 := by
        by_cases hm1c : m + 1 ≤ 2
        · rw [if_pos hm1c]
          have := hy1 (by omega)
          rw [if_pos (by omega)] at hy2
          omega
        · rw [if_neg hm1c]
          by_cases hmle2 : m ≤ 2
          · rw [if_pos hmle2] at hy2
            have hm2eq : m = 2 := by omega
            have : ¬(y = 400) := fun hc => hsp ⟨hm2eq, hc⟩
            have := hy1 hmle2
            omega
          · rw [if_neg hmle2] at hy2
            omega
      rw [daysFromCivil_local y (m + 1) 1 hyn1 hyn2]
      have hx399 : (if m + 1 ≤ 2 then y - 1 else y) ≤ 399 := hyn2
      have hys := yearStart_le _ hx399
      have hmp11 : mpOf (m + 1) ≤ 11 := by
        unfold mpOf
        by_cases hgt : m + 1 > 2
        · rw [if_pos hgt]; omega
        · rw [if_neg hgt]; omega
      have hnfub : doeOfCivil (if m + 1 ≤ 2 then y - 1 else y) (m + 1) 1
          ≤ 146069 := by
        rw [doeOfCivil_one]
        omega
      have hnflb : 1 ≤ doeOfCivil (if m + 1 ≤ 2 then y - 1 else y) (m + 1) 1
          := by
        rw [doeOfCivil_one]
        by_cases hmle2 : m ≤ 2
        · by_cases hm1eq : m = 1
          · subst hm1eq
            rw [show (153 * mpOf 2 + 2) / 5 = 337 from by decide]
            omega
          · have hm2eq : m = 2 := by omega
            subst hm2eq
            rw [if_neg (by omega : ¬(2 + 1 : Nat) ≤ 2)]
            have hy1c := hy1 (by omega)
            have hyS : 365 ≤ yearStart y := by
              unfold yearStart
              omega
            omega
        · have hmge3 : 3 ≤ m := by omega
          have : 1 ≤ mpOf (m + 1) := by
            unfold mpOf
            rw [if_pos (by omega)]
            omega
          have : 31 ≤ (153 * mpOf (m + 1) + 2) / 5 := by omega
          omega
      rw [show (↑(doeOfCivil (if m + 1 ≤ 2 then y - 1 else y) (m + 1) 1) : Int)
            - 719468 - 1 =
          ((doeOfCivil (if m + 1 ≤ 2 then y - 1 else y) (m + 1) 1 - 1 : Nat)
            : Int) - 719468 from by omega,
        civilFromDays_local _ (by omega)]
      show _ = natLastDay y m
      unfold natLastDay
      dsimp only
      rw [if_neg h12]
      dsimp only
      rw [if_neg (by omega : ¬(400 ≤ (if m + 1 ≤ 2 then y - 1 else y)))]

/-- The civil components of any day number form a real calendar date and
recompose to the same day number. -/
theorem civilFromDays_facts (z : Int) :
    1 ≤ (civilFromDays z).2.1 ∧ (civilFromDays z).2.1 ≤ 12 ∧
    1 ≤ (civilFromDays z).2.2 ∧ (civilFromDays z).2.2 ≤ 31 ∧
    (civilFromDays z).2.2 ≤
      lastDayOfMonth (civilFromDays z).1 (civilFromDays z).2.1 ∧
    daysFromCivil (civilFromDays z).1 (civilFromDays z).2.1
      (civilFromDays z).2.2 = z := by
  have hr0 : (0 : Int) ≤ (z + 719468) % 146097 :=
    Int.emod_nonneg _ (by norm_num)
  have hrlt : (z + 719468) % 146097 < 146097 :=
    Int.emod_lt_of_pos _ (by norm_num)
  have hzz : 146097 * ((z + 719468) / 146097) + (z + 719468) % 146097 =
      z + 719468 := Int.ediv_add_emod _ _
  have hrcast : ((((z + 719468) % 146097).toNat : Nat) : Int) =
      (z + 719468) % 146097 := Int.toNat_of_nonneg hr0
  have hrn : ((z + 719468) % 146097).toNat < 146097 := by omega
  obtain ⟨k1, k2, k3, k4, k5, k6, k7, k8, k9⟩ :=
    civilOfDoe_correct ((z + 719468) % 146097).toNat hrn
  have hcFD : civilFromDays z =
      ((z + 719468) / 146097 * 400 +
        ((civilOfDoe ((z + 719468) % 146097).toNat).1 : Int),
       (civilOfDoe ((z + 719468) % 146097).toNat).2.1,
       (civilOfDoe ((z + 719468) % 146097).toNat).2.2) := rfl
  rw [hcFD]
  dsimp only
  have hyloc : (if (civilOfDoe ((z + 719468) % 146097).toNat).2.1 ≤ 2 then
      (civilOfDoe ((z + 719468) % 146097).toNat).1 - 1
      else (civilOfDoe ((z + 719468) % 146097).toNat).1) ≤ 399 := by
    by_cases hmle : (civilOfDoe ((z + 719468) % 146097).toNat).2.1 ≤ 2
    · rw [if_pos hmle]
      omega
    · rw [if_neg hmle]
      exact k7 hmle
  refine ⟨k1, k2, k3, k4, ?_, ?_⟩
  · rw [show (z + 719468) / 146097 * 400 +
        ((civilOfDoe ((z + 719468) % 146097).toNat).1 : Int) =
        ((civilOfDoe ((z + 719468) % 146097).toNat).1 : Int) +
          400 * ((z + 719468) / 146097) from by ring,
      lastDayOfMonth_shift _ _ _ k1 k2,
      lastDayOfMonth_local _ _ k1 k2 k5 hyloc]
    exact k9
  · rw [show (z + 719468) / 146097 * 400 +
        ((civilOfDoe ((z + 719468) % 146097).toNat).1 : Int) =
        ((civilOfDoe ((z + 719468) % 146097).toNat).1 : Int) +
          400 * ((z + 719468) / 146097) from by ring,
      daysFromCivil_shift,
      daysFromCivil_local _ _ _ k5 hyloc, k8]
    omega

/-- Any real calendar date comes back unchanged through the day-number
conversions. -/
theorem civil_roundtrip (y : Int) (m d : Nat) (hm1 : 1 ≤ m) (hm2 : m ≤ 12)
    (hd1 : 1 ≤ d) (hdl : d ≤ lastDayOfMonth y m) :
    civilFromDays (daysFromCivil y m d) = (y, m, d) := by
  have ht0 : (0 : Int) ≤ (if m ≤ 2 then y - 1 else y) % 400 :=
    Int.emod_nonneg _ (by norm_num)
  have htlt : (if m ≤ 2 then y - 1 else y) % 400 < 400 :=
    Int.emod_lt_of_pos _ (by norm_num)
  have hzz : 400 * ((if m ≤ 2 then y - 1 else y) / 400) +
      (if m ≤ 2 then y - 1 else y) % 400 = (if m ≤ 2 then y - 1 else y) :=
    Int.ediv_add_emod _ _
  have htcast : ((((if m ≤ 2 then y - 1 else y) % 400).toNat : Nat) : Int) =
      (if m ≤ 2 then y - 1 else y) % 400 := Int.toNat_of_nonneg ht0
  have hy :
      y = (((if m ≤ 2 then
          ((if m ≤ 2 then y - 1 else y) % 400).toNat + 1
        else ((if m ≤ 2 then y - 1 else y) % 400).toNat) : Nat) : Int) +
        400 * ((if m ≤ 2 then y - 1 else y) / 400) := by
    by_cases hmle : m ≤ 2
    · rw [if_pos hmle]
      rw [if_pos hmle] at hzz
      push_cast
      omega
    · rw [if_neg hmle]
      rw [if_neg hmle] at hzz
      omega
  set yL : Nat := if m ≤ 2 then
      ((if m ≤ 2 then y - 1 else y) % 400).toNat + 1
    else ((if m ≤ 2 then y - 1 else y) % 400).toNat with hyL
  have hyL1 : m ≤ 2 → 1 ≤ yL := by
    intro hmle
    rw [hyL, if_pos hmle]
    omega
  have hyL2 : (if m ≤ 2 then yL - 1 else yL) ≤ 399 := by
    by_cases hmle : m ≤ 2
    · rw [if_pos hmle, hyL, if_pos hmle]
      omega
    · rw [if_neg hmle, hyL, if_neg hmle]
      omega
  have hdl2 : d ≤ natLastDay yL m := by
    rw [hy, lastDayOfMonth_shift _ _ _ hm1 hm2,
      lastDayOfMonth_local _ _ hm1 hm2 hyL1 hyL2] at hdl
    exact hdl
  obtain ⟨hround, hlt⟩ := natDays_correct yL m d hm1 hm2 hd1 hyL1 hyL2 hdl2
  rw [hy, daysFromCivil_shift, daysFromCivil_local _ _ _ hyL1 hyL2,
    show ((doeOfCivil (if m ≤ 2 then yL - 1 else yL) m d : Nat) : Int)
        - 719468 + 146097 * ((if m ≤ 2 then y - 1 else y) / 400) =
      (((doeOfCivil (if m ≤ 2 then yL - 1 else yL) m d : Nat) : Int)
        - 719468) + 146097 * ((if m ≤ 2 then y - 1 else y) / 400)
      from by ring,
    civilFromDays_shift, civilFromDays_local _ hlt, hround]

/-! ## Length lemmas for the byte-level primitives -/

theorem beBytes_length (k n : Nat) : (beBytes k n).length = k := by
  induction k generalizing n with
  | zero => rfl
  | succ k ih => simp [beBytes, ih]

theorem beNat_append (l : List Nat) (b : Nat) :
    beNat (l ++ [b]) = 256 * beNat l + b := by
  unfold beNat
  rw [List.foldl_append]
  simp [Nat.mul_comm]

theorem beNat_beBytes (k n : Nat) (h : n < 256 ^ k) :
    beNat (beBytes k n) = n := by
  induction k generalizing n with
  | zero =>
    interval_cases n
    rfl
  | succ k ih =>
    rw [beBytes, beNat_append, ih (n / 256) (by
      have : 256 ^ (k + 1) = 256 ^ k * 256 := by ring
      omega)]
    omega

theorem shaCompress_length (hs block : List Nat) :
    (shaCompress hs block).length = 8 := by
  unfold shaCompress
  dsimp only
  rfl

theorem foldl_shaCompress_length (chunks : List (List Nat)) (hs : List Nat)
    (h : hs.length = 8) : (chunks.foldl shaCompress hs).length = 8 := by
  induction chunks generalizing hs with
  | nil => exact h
  | cons c rest ih => exact ih _ (shaCompress_length hs c)

theorem flatten_map_length {α : Type} (f : α → List Nat) (k : Nat)
    (hf : ∀ x, (f x).length = k) (l : List α) :
    ((l.map f).flatten).length = k * l.length := by
  induction l with
  | nil => simp
  | cons x rest ih =>
    simp only [List.map_cons, List.flatten_cons, List.length_append, ih,
      List.length_cons, hf]
    ring

theorem sha256_length (msg : List Nat) : (sha256 msg).length = 32 := by
  unfold sha256
  dsimp only
  rw [flatten_map_length (beBytes 4) 4 (fun x => beBytes_length 4 x),
    foldl_shaCompress_length _ _ (by rfl)]

theorem hmacSha256_length (key msg : List Nat) :
    (hmacSha256 key msg).length = 32 := by
  unfold hmacSha256
  exact sha256_length _

theorem extend_key_length (data : List Nat) : (extend_key data).length = 32 := by
  unfold extend_key hkdfHmacSha256
  exact hmacSha256_length _ _

theorem toLeWords32_length (l : List Nat) :
    (toLeWords32 l).length = l.length / 4 := by
  match l with
  | [] => rfl
  | [_] => simp [toLeWords32]
  | [_, _] => simp [toLeWords32]
  | [_, _, _] => simp [toLeWords32]
  | b0 :: b1 :: b2 :: b3 :: rest =>
    rw [toLeWords32, List.length_cons, toLeWords32_length rest]
    simp only [List.length_cons]
    omega

theorem chachaQuarter_length (s : List Nat) (a b c d : Nat) :
    (chachaQuarter s a b c d).length = s.length := by
  unfold chachaQuarter
  simp

theorem chachaDoubleRound_length (s : List Nat) :
    (chachaDoubleRound s).length = s.length := by
  unfold chachaDoubleRound
  simp only [chachaQuarter_length]

theorem iterate_chachaDoubleRound_length (n : Nat) (s : List Nat) :
    (iterate chachaDoubleRound n s).length = s.length := by
  induction n generalizing s with
  | zero => rfl
  | succ n ih => rw [iterate, ih, chachaDoubleRound_length]

theorem chachaBlock_length (key nonce : List Nat) (counter : Nat)
    (hk : key.length = 32) (hn : nonce.length = 12) :
    (chachaBlock key nonce counter).length = 64 := by
  unfold chachaBlock
  dsimp only
  rw [flatten_map_length leBytes4 4 (fun x => by unfold leBytes4; rfl),
    List.length_zipWith, iterate_chachaDoubleRound_length]
  simp [toLeWords32_length, hk, hn]

theorem chachaKeystream_length (key nonce : List Nat) (n : Nat)
    (hk : key.length = 32) (hn : nonce.length = 12) :
    (chachaKeystream key nonce n).length = n := by
  unfold chachaKeystream
  rw [List.length_take,
    flatten_map_length (chachaBlock key nonce) 64
      (fun c => chachaBlock_length key nonce c hk hn)]
  rw [List.length_range]
  omega

theorem obfuscate_length (key message : List Nat) :
    (obfuscate key message).length = message.length := by
  unfold obfuscate
  by_cases hm : message = []
  · rw [if_pos hm]
  · rw [if_neg hm]
    dsimp only
    rw [List.length_zipWith,
      chachaKeystream_length _ _ _ (extend_key_length key) (by
        rw [List.length_take, List.length_reverse, extend_key_length]
        decide)]
    omega

theorem zipWith_xor_cancel (m ks : List Nat) (h : m.length ≤ ks.length) :
    List.zipWith (fun a b => a ^^^ b)
      (List.zipWith (fun a b => a ^^^ b) m ks) ks = m := by
  induction m generalizing ks with
  | nil => simp
  | cons a rest ih =>
    match ks with
    | [] => simp at h
    | k :: krest =>
      simp only [List.zipWith_cons_cons, List.cons.injEq]
      exact ⟨Nat.xor_cancel_right k a, ih krest (by simpa using h)⟩

theorem obfuscate_obfuscate (key message : List Nat) :
    obfuscate key (obfuscate key message) = message := by
  by_cases hm : message = []
  · rw [hm]
    rfl
  · have hks : (chachaKeystream (extend_key key)
        (List.take 12 (extend_key key).reverse) message.length).length =
        message.length :=
      chachaKeystream_length _ _ _ (extend_key_length key) (by
        rw [List.length_take, List.length_reverse, extend_key_length]
        decide)
    have hlen : (obfuscate key message).length = message.length :=
      obfuscate_length key message
    have hne : obfuscate key message ≠ [] := by
      intro hz
      rw [hz] at hlen
      simp at hlen
      exact hm (List.eq_nil_of_length_eq_zero hlen.symm)
    rw [obfuscate, if_neg hne]
    dsimp only
    rw [hlen, obfuscate, if_neg hm]
    dsimp only
    exact zipWith_xor_cancel message _ (le_of_eq hks.symm)

/-! ## Bit-level packing lemmas -/

theorem lor_two_pow_mul_add (k a b : Nat) (hb : b < 2 ^ k) :
    2 ^ k * a ||| b = 2 ^ k * a + b := by
  apply Nat.eq_of_testBit_eq
  intro i
  rw [Nat.testBit_or]
  rcases lt_or_ge i k with hik | hik
  · have heven : (2 : Nat) ^ (k - i) * a = 2 * (2 ^ (k - i - 1) * a) := by
      rw [← Nat.mul_assoc]
      congr 1
      rw [← pow_succ']
      congr 1
      omega
    have hshape : (2 : Nat) ^ k * a = 2 ^ (k - i) * a * 2 ^ i := by
      rw [Nat.mul_assoc, Nat.mul_comm a, ← Nat.mul_assoc, ← pow_add,
        Nat.sub_add_cancel (Nat.le_of_lt hik)]
    have h1 : Nat.testBit (2 ^ k * a) i = false := by
      rw [Nat.testBit_to_div_mod, hshape,
        Nat.mul_div_cancel _ (Nat.pos_pow_of_pos i (by norm_num)), heven]
      simp [Nat.mul_mod_right]
    have h2 : Nat.testBit (2 ^ k * a + b) i = Nat.testBit b i := by
      rw [Nat.testBit_to_div_mod, Nat.testBit_to_div_mod, hshape,
        Nat.add_comm,
        Nat.add_mul_div_right _ _ (Nat.pos_pow_of_pos i (by norm_num)),
        heven, Nat.add_mul_mod_self_left]
    rw [h1, h2, Bool.false_or]
  · have hbf : Nat.testBit b i = false :=
      Nat.testBit_lt_two_pow (lt_of_lt_of_le hb
        (Nat.pow_le_pow_right (by norm_num) hik))
    rw [hbf, Bool.or_false]
    rw [Nat.testBit_to_div_mod, Nat.testBit_to_div_mod]
    have h2i : (2 : Nat) ^ i = 2 ^ k * 2 ^ (i - k) := by
      rw [← pow_add]
      congr 1
      omega
    have hd1 : (2 ^ k * a + b) / 2 ^ i = a / 2 ^ (i - k) := by
      rw [h2i, ← Nat.div_div_eq_div_mul]
      congr 1
      rw [Nat.mul_add_div (Nat.pos_pow_of_pos k (by norm_num)),
        Nat.div_eq_of_lt hb, Nat.add_zero]
    have hd2 : 2 ^ k * a / 2 ^ i = a / 2 ^ (i - k) := by
      rw [h2i, ← Nat.div_div_eq_div_mul, Nat.mul_div_cancel_left _
        (Nat.pos_pow_of_pos k (by norm_num))]
    rw [hd1, hd2]

theorem shiftLeft_lor_small (a b k : Nat) (hb : b < 2 ^ k) :
    (a <<< k) ||| b = a * 2 ^ k + b := by
  rw [Nat.shiftLeft_eq, Nat.mul_comm, lor_two_pow_mul_add k a b hb,
    Nat.mul_comm]

/-! ## Claim theorems for the primitives -/

/-- C3: obfuscation is an involution for every key and message, and the
repository test vector holds: obfuscating b"World" under b"Hello" gives
c43889aafa, and obfuscating again returns b"World". -/
theorem C3_obfuscate_involution :
    (∀ key message : List Nat,
      obfuscate key (obfuscate key message) = message) ∧
    obfuscate [72, 101, 108, 108, 111] [87, 111, 114, 108, 100] =
      [0xc4, 0x38, 0x89, 0xaa, 0xfa] ∧
    obfuscate [72, 101, 108, 108, 111] [0xc4, 0x38, 0x89, 0xaa, 0xfa] =
      [87, 111, 114, 108, 100] :=
  ⟨obfuscate_obfuscate, by decide, by decide⟩

/-- C8: seeding the xoshiro256** generator with sha256("Hello World") and
drawing 32 bytes yields the specified vector, where each byte is the low
8 bits of one full next_u64 state advance. -/
theorem C8_xoshiro_vector :
    (Xoshiro256StarStar.next_bytes
      (Xoshiro256StarStar.from_data
        (sha256 [72, 101, 108, 108, 111, 32, 87, 111, 114, 108, 100]))
      32).1 =
      [0xb1, 0x8b, 0x44, 0x6d, 0xf4, 0x14, 0xec, 0x00, 0x71, 0x4f, 0x19,
       0xcb, 0x0f, 0x03, 0xe4, 0x5c, 0xd3, 0xc3, 0xd5, 0xd0, 0x71, 0xd2,
       0xe7, 0x48, 0x3b, 0xa8, 0x62, 0x7c, 0x65, 0xb9, 0x92, 0x6a] ∧
    ∀ x : Xoshiro256StarStar,
      Xoshiro256StarStar.next_byte x =
        ((Xoshiro256StarStar.next_u64 x).1 % 256,
         (Xoshiro256StarStar.next_u64 x).2) :=
  ⟨by decide, fun x => rfl⟩

/-- C9: at Low resolution serialize_seq returns the 2-byte big-endian
encoding for sequence numbers up to 65535 and a ResolutionError above;
at every other resolution it returns the 4-byte big-endian encoding. -/
theorem C9_serialize_seq (seq : Nat) (h : seq < 4294967296) :
    (seq ≤ 65535 →
      ProvenanceMarkResolution.serialize_seq .low seq = .ok (beBytes 2 seq)) ∧
    (65535 < seq →
      ProvenanceMarkResolution.serialize_seq .low seq =
        .error .resolutionError) ∧
    ∀ res : ProvenanceMarkResolution, res ≠ .low →
      ProvenanceMarkResolution.serialize_seq res seq = .ok (beBytes 4 seq) := by
  have b2 : ∀ n : Nat, beBytes 2 n = [n / 256 % 256, n % 256] := fun n => rfl
  have b4 : ∀ n : Nat, beBytes 4 n =
      [n / 256 / 256 / 256 % 256, n / 256 / 256 % 256, n / 256 % 256,
       n % 256] := fun n => rfl
  refine ⟨?_, ?_, ?_⟩
  · intro hle
    rw [ProvenanceMarkResolution.serialize_seq]
    simp only [ProvenanceMarkResolution.seq_bytes_length]
    rw [if_neg (by omega), b2]
    simp only [Except.ok.injEq, List.cons.injEq, and_true]
    omega
  · intro hgt
    rw [ProvenanceMarkResolution.serialize_seq]
    simp only [ProvenanceMarkResolution.seq_bytes_length]
    rw [if_pos (by omega)]
  · intro res hres
    cases res with
    | low => exact absurd rfl hres
    | medium | quartile | high =>
      rw [ProvenanceMarkResolution.serialize_seq]
      simp only [ProvenanceMarkResolution.seq_bytes_length]
      rw [b4]
      simp only [Except.ok.injEq, List.cons.injEq, and_true]
      omega

/-- C9 witness at the sequence number 300. -/
theorem C9_serialize_seq_witness :
    (300 ≤ 65535 →
      ProvenanceMarkResolution.serialize_seq .low 300 =
        .ok (beBytes 2 300)) ∧
    (65535 < 300 →
      ProvenanceMarkResolution.serialize_seq .low 300 =
        .error .resolutionError) ∧
    ∀ res : ProvenanceMarkResolution, res ≠ .low →
      ProvenanceMarkResolution.serialize_seq res 300 = .ok (beBytes 4 300) :=
  C9_serialize_seq 300 (by decide)

/-- C10: the link predicate is false whenever the successor mark has
sequence number zero, and it equals a formulation that never subtracts, so
the embedded predicate is total and the `next.seq - 1` in the source is
reached only when `next.seq != 0`. -/
theorem C10_precedes_total :
    (∀ a b : ProvenanceMark,
      ProvenanceMark.precedes a { b with seq := 0 } = false) ∧
    ∀ a b : ProvenanceMark,
      ProvenanceMark.precedes a b =
        ((b.seq != 0) && (b.key != b.chain_id) && (a.seq + 1 == b.seq) &&
         (decide (a.date.millis ≤ b.date.millis)) &&
         (a.hash == ProvenanceMark.make_hash a.res a.key b.key a.chain_id
           a.seq_bytes a.date_bytes a.info_bytes)) := by
  constructor
  · intro a b
    simp [ProvenanceMark.precedes]
  · intro a b
    unfold ProvenanceMark.precedes
    by_cases hb : b.seq = 0
    · simp [hb]
    · have h2 : (a.seq == b.seq - 1) = (a.seq + 1 == b.seq) := by
        rw [Bool.eq_iff_iff, beq_iff_eq, beq_iff_eq]
        omega
      rw [h2]

/-- C2: for marks of a common resolution, the link predicate holds exactly
when the successor is a non-genesis mark with the next sequence number and
a later-or-equal date, and the predecessor's hash is the link-length prefix
of SHA-256 over key ‖ next key ‖ chain id ‖ seq bytes ‖ date bytes ‖ info
bytes. -/
theorem C2_precedes_iff (a b : ProvenanceMark) (_hres : a.res = b.res) :
    ProvenanceMark.precedes a b = true ↔
      (b.seq ≠ 0 ∧ b.key ≠ b.chain_id ∧ b.seq = a.seq + 1 ∧
       a.date.millis ≤ b.date.millis ∧
       a.hash = sha256Prefix
         (a.key ++ b.key ++ a.chain_id ++ a.seq_bytes ++ a.date_bytes ++
           a.info_bytes) a.res.link_length) := by
  unfold ProvenanceMark.precedes ProvenanceMark.make_hash
  simp only [Bool.and_eq_true, bne_iff_ne, ne_eq, beq_iff_eq,
    decide_eq_true_eq]
  constructor
  · rintro ⟨⟨⟨⟨h1, h2⟩, h3⟩, h4⟩, h5⟩
    exact ⟨h1, h2, by omega, h4, h5⟩
  · rintro ⟨h1, h2, h3, h4, h5⟩
    exact ⟨⟨⟨⟨h1, h2⟩, by omega⟩, h4⟩, h5⟩

/-- C2 witness at a concrete pair of marks of equal resolution. -/
theorem C2_precedes_iff_witness :
    ProvenanceMark.precedes markZero markZero = true ↔
      (markZero.seq ≠ 0 ∧ markZero.key ≠ markZero.chain_id ∧
       markZero.seq = markZero.seq + 1 ∧
       markZero.date.millis ≤ markZero.date.millis ∧
       markZero.hash = sha256Prefix
         (markZero.key ++ markZero.key ++ markZero.chain_id ++
           markZero.seq_bytes ++ markZero.date_bytes ++ markZero.info_bytes)
         markZero.res.link_length) :=
  C2_precedes_iff markZero markZero rfl

/-- C5 (corrected): whole-sequence validity holds exactly when the list has
at least two marks, the first mark is not a non-genesis mark at sequence
number zero, and every adjacent pair satisfies the link predicate; a chain
whose first mark has a nonzero sequence number is accepted without any
genesis mark. -/
theorem C5_is_sequence_valid (marks : List ProvenanceMark) :
    ProvenanceMark.is_sequence_valid marks = true ↔
      (2 ≤ marks.length ∧
       (∀ m rest, marks = m :: rest →
         ¬(m.seq = 0 ∧ m.is_genesis = false)) ∧
       ProvenanceMark.chainPrecedes marks = true) := by
  match marks with
  | [] => simp [ProvenanceMark.is_sequence_valid]
  | [m] => simp [ProvenanceMark.is_sequence_valid]
  | m :: m2 :: rest =>
    simp only [ProvenanceMark.is_sequence_valid]
    by_cases hg : (m.seq == 0 && !m.is_genesis) = true
    · rw [if_pos hg]
      simp only [Bool.and_eq_true, beq_iff_eq, Bool.not_eq_true'] at hg
      constructor
      · intro h
        exact absurd h (by simp)
      · rintro ⟨hlen, hfirst, hchain⟩
        exact absurd hg (hfirst m (m2 :: rest) rfl)
    · rw [if_neg hg]
      simp only [Bool.and_eq_true, beq_iff_eq, Bool.not_eq_true'] at hg
      constructor
      · intro hch
        refine ⟨by simp, ?_, hch⟩
        intro mm rest2 heq
        rw [List.cons.injEq] at heq
        rw [← heq.1]
        exact hg
      · rintro ⟨_, _, hch⟩
        exact hch

theorem and_31 (n : Nat) : n &&& 31 = n % 32 :=
  Nat.and_pow_two_sub_one_eq_mod n 5

theorem and_15 (n : Nat) : n &&& 15 = n % 16 :=
  Nat.and_pow_two_sub_one_eq_mod n 4

theorem and_127 (n : Nat) : n &&& 127 = n % 128 :=
  Nat.and_pow_two_sub_one_eq_mod n 7

theorem shiftRight_5 (n : Nat) : n >>> 5 = n / 32 :=
  Nat.shiftRight_eq_div_pow n 5

theorem shiftRight_8 (n : Nat) : n >>> 8 = n / 256 :=
  Nat.shiftRight_eq_div_pow n 8

theorem shiftRight_9 (n : Nat) : n >>> 9 = n / 512 :=
  Nat.shiftRight_eq_div_pow n 9

theorem dateOfYmd_dayNumber (y : Int) (m d : Nat) :
    (dateOfYmd y m d).dayNumber = daysFromCivil y m d := by
  unfold dateOfYmd Date.dayNumber
  dsimp only
  rw [Int.mul_ediv_cancel _ (by norm_num)]
  ring

theorem pack2_eq (yy mo dy : Nat) (_hyy : yy < 128) (hmo : mo ≤ 12)
    (hdy : dy ≤ 31) :
    (yy <<< 9) ||| (mo <<< 5) ||| dy = yy * 512 + mo * 32 + dy := by
  have e5 : (2 : Nat) ^ 5 = 32 := by norm_num
  have e9 : (2 : Nat) ^ 9 = 512 := by norm_num
  have hb1 : (mo <<< 5) < 2 ^ 9 := by
    rw [Nat.shiftLeft_eq]
    omega
  have h1 : (yy <<< 9) ||| (mo <<< 5) = yy * 512 + mo * 32 := by
    rw [shiftLeft_lor_small yy _ 9 hb1, Nat.shiftLeft_eq, e5, e9]
  calc (yy <<< 9) ||| (mo <<< 5) ||| dy
      = (2 ^ 5 * (yy * 16 + mo)) ||| dy := by
        rw [h1]
        congr 1
        rw [e5]
        ring
    _ = 2 ^ 5 * (yy * 16 + mo) + dy :=
        lor_two_pow_mul_add 5 _ dy (by omega)
    _ = yy * 512 + mo * 32 + dy := by
        rw [e5]
        ring

theorem repack2_eq (v : Nat) (hv : v < 65536) :
    (((v >>> 8) % 256) <<< 8) ||| (v % 256) = v := by
  rw [shiftLeft_lor_small _ _ 8 (by omega), shiftRight_8]
  have e8 : (2 : Nat) ^ 8 = 256 := by norm_num
  rw [e8]
  omega

/-- The serialize–deserialize–serialize property of the date codecs: any
successfully encoded date decodes to a date that re-encodes to the same
bytes, whose width is the resolution's date field width. -/
theorem ser_date_deser (res : ProvenanceMarkResolution) (d : Date)
    (bs : List Nat) (h : res.serialize_date d = .ok bs) :
    (∃ d2, res.deserialize_date bs = .ok d2 ∧
      res.serialize_date d2 = .ok bs) ∧
    bs.length = res.date_bytes_length := by
  cases res with
  | low =>
    obtain ⟨f1, f2, f3, f4, f5, f6⟩ := civilFromDays_facts d.dayNumber
    rw [ProvenanceMarkResolution.serialize_date] at h
    unfold Date.serialize_2_bytes at h
    dsimp only at h
    set c := civilFromDays d.dayNumber with hc
    split_ifs at h with hyr hmd
    obtain ⟨hy0, hy1⟩ := hyr
    obtain ⟨hm1, hm2, hd1, hd31⟩ := hmd
    have hbs : bs = [((((c.1 - 2023).toNat <<< 9) ||| (c.2.1 <<< 5) |||
        c.2.2) >>> 8) % 256,
        (((c.1 - 2023).toNat <<< 9) ||| (c.2.1 <<< 5) ||| c.2.2) % 256] := by
      rw [← Except.ok.injEq]
      exact h.symm
    have hyyN : (c.1 - 2023).toNat < 128 := by omega
    have hpack : ((c.1 - 2023).toNat <<< 9) ||| (c.2.1 <<< 5) ||| c.2.2 =
        (c.1 - 2023).toNat * 512 + c.2.1 * 32 + c.2.2 :=
      pack2_eq _ _ _ hyyN hm2 hd31
    have hvlt : (c.1 - 2023).toNat * 512 + c.2.1 * 32 + c.2.2 < 65536 := by
      omega
    have hrepack : (((((c.1 - 2023).toNat * 512 + c.2.1 * 32 + c.2.2) >>> 8)
        % 256) <<< 8) |||
        (((c.1 - 2023).toNat * 512 + c.2.1 * 32 + c.2.2) % 256) =
        (c.1 - 2023).toNat * 512 + c.2.1 * 32 + c.2.2 :=
      repack2_eq _ hvlt
    refine ⟨⟨dateOfYmd c.1 c.2.1 c.2.2, ?_, ?_⟩, by rw [hbs]; rfl⟩
    · rw [hbs, hpack, ProvenanceMarkResolution.deserialize_date]
      unfold Date.deserialize_2_bytes
      dsimp only
      rw [hrepack, and_31, shiftRight_5, and_15, shiftRight_9, and_127]
      have hdy : ((c.1 - 2023).toNat * 512 + c.2.1 * 32 + c.2.2) % 32 =
          c.2.2 := by omega
      have hmo : ((c.1 - 2023).toNat * 512 + c.2.1 * 32 + c.2.2) / 32 % 16 =
          c.2.1 := by omega
      have hyy : ((c.1 - 2023).toNat * 512 + c.2.1 * 32 + c.2.2) / 512 % 128
          = (c.1 - 2023).toNat := by omega
      rw [hdy, hmo, hyy]
      have hyear : (((c.1 - 2023).toNat : Nat) : Int) + 2023 = c.1 := by
        omega
      rw [hyear, if_neg (not_not_intro ⟨hm1, hm2, hd1, f5⟩)]
    · rw [ProvenanceMarkResolution.serialize_date]
      unfold Date.serialize_2_bytes
      dsimp only
      rw [dateOfYmd_dayNumber, civil_roundtrip c.1 c.2.1 c.2.2 hm1 hm2 hd1 f5]
      dsimp only
      rw [if_neg (not_not_intro ⟨hy0, hy1⟩),
        if_neg (not_not_intro ⟨hm1, hm2, hd1, hd31⟩), hbs]
  | medium =>
    rw [ProvenanceMarkResolution.serialize_date] at h
    unfold Date.serialize_4_bytes at h
    dsimp only at h
    split_ifs at h with hsec
    obtain ⟨hs0, hs1⟩ := hsec
    have hbs : bs = beBytes 4 (d.millis.tdiv 1000).toNat := by
      rw [← Except.ok.injEq]
      exact h.symm
    have b4 : ∀ n : Nat, beBytes 4 n =
        [n / 256 / 256 / 256 % 256, n / 256 / 256 % 256, n / 256 % 256,
         n % 256] := fun n => rfl
    have hsltN : (d.millis.tdiv 1000).toNat < 256 ^ 4 := by
      have : (256 : Nat) ^ 4 = 4294967296 := by norm_num
      omega
    have hben : beNat (beBytes 4 (d.millis.tdiv 1000).toNat) =
        (d.millis.tdiv 1000).toNat := beNat_beBytes _ _ hsltN
    refine ⟨⟨⟨((d.millis.tdiv 1000).toNat : Int) * 1000, ⟩, ?_, ?_⟩,
      by rw [hbs, beBytes_length]; rfl⟩
    · rw [hbs, b4, ProvenanceMarkResolution.deserialize_date]
      unfold Date.deserialize_4_bytes
      rw [← b4, hben]
    · rw [ProvenanceMarkResolution.serialize_date]
      unfold Date.serialize_4_bytes
      dsimp only
      rw [Int.mul_tdiv_cancel _ (by norm_num)]
      rw [if_pos (by omega)]
      rw [hbs]
      congr 1
  | quartile =>
    rw [ProvenanceMarkResolution.serialize_date] at h
    unfold Date.serialize_6_bytes at h
    split_ifs at h with hneg hmax
    have hbs : bs = beBytes 6 d.millis.toNat := by
      rw [← Except.ok.injEq]
      exact h.symm
    have b6 : ∀ n : Nat, beBytes 6 n =
        [n / 256 / 256 / 256 / 256 / 256 % 256,
         n / 256 / 256 / 256 / 256 % 256, n / 256 / 256 / 256 % 256,
         n / 256 / 256 % 256, n / 256 % 256, n % 256] := fun n => rfl
    have hm6 : d.millis.toNat ≤ maxMillis6 := by
      unfold maxMillis6 at hmax ⊢
      omega
    have hlt : d.millis.toNat < 256 ^ 6 := by
      have : (256 : Nat) ^ 6 = 281474976710656 := by norm_num
      unfold maxMillis6 at hm6
      omega
    have hben : beNat (beBytes 6 d.millis.toNat) = d.millis.toNat :=
      beNat_beBytes _ _ hlt
    have hd2 : (⟨(d.millis.toNat : Int)⟩ : Date) = d := by
      congr 1
      omega
    refine ⟨⟨d, ?_, ?_⟩, by rw [hbs, beBytes_length]; rfl⟩
    · rw [hbs, b6, ProvenanceMarkResolution.deserialize_date]
      unfold Date.deserialize_6_bytes
      dsimp only
      rw [← b6, hben, if_neg (by omega), hd2]
    · rw [ProvenanceMarkResolution.serialize_date]
      unfold Date.serialize_6_bytes
      rw [if_neg (not_not_intro hneg), if_neg hmax, hbs]
  | high =>
    rw [ProvenanceMarkResolution.serialize_date] at h
    unfold Date.serialize_6_bytes at h
    split_ifs at h with hneg hmax
    have hbs : bs = beBytes 6 d.millis.toNat := by
      rw [← Except.ok.injEq]
      exact h.symm
    have b6 : ∀ n : Nat, beBytes 6 n =
        [n / 256 / 256 / 256 / 256 / 256 % 256,
         n / 256 / 256 / 256 / 256 % 256, n / 256 / 256 / 256 % 256,
         n / 256 / 256 % 256, n / 256 % 256, n % 256] := fun n => rfl
    have hm6 : d.millis.toNat ≤ maxMillis6 := by
      unfold maxMillis6 at hmax ⊢
      omega
    have hlt : d.millis.toNat < 256 ^ 6 := by
      have : (256 : Nat) ^ 6 = 281474976710656 := by norm_num
      unfold maxMillis6 at hm6
      omega
    have hben : beNat (beBytes 6 d.millis.toNat) = d.millis.toNat :=
      beNat_beBytes _ _ hlt
    have hd2 : (⟨(d.millis.toNat : Int)⟩ : Date) = d := by
      congr 1
      omega
    refine ⟨⟨d, ?_, ?_⟩, by rw [hbs, beBytes_length]; rfl⟩
    · rw [hbs, b6, ProvenanceMarkResolution.deserialize_date]
      unfold Date.deserialize_6_bytes
      dsimp only
      rw [← b6, hben, if_neg (by omega), hd2]
    · rw [ProvenanceMarkResolution.serialize_date]
      unfold Date.serialize_6_bytes
      rw [if_neg (not_not_intro hneg), if_neg hmax, hbs]

/-- C7: the 2-byte date codec packs year − 2023, month and day into a
big-endian 16-bit value for years 2023 to 2150 and fails outside that
range; decoding succeeds exactly when the unpacked fields designate a real
calendar date; and the three concrete vectors hold: 2023-06-20 encodes to
0x00d4, 0xff9f decodes to 2150-12-31, and 0x005e fails. -/
theorem C7_date_2byte (date : Date) (b0 b1 : Nat) :
    (2023 ≤ (civilFromDays date.dayNumber).1 ∧
        (civilFromDays date.dayNumber).1 ≤ 2150 →
      Date.serialize_2_bytes date = .ok (beBytes 2
        ((((civilFromDays date.dayNumber).1 - 2023).toNat <<< 9) |||
         ((civilFromDays date.dayNumber).2.1 <<< 5) |||
         (civilFromDays date.dayNumber).2.2))) ∧
    ((civilFromDays date.dayNumber).1 < 2023 ∨
        2150 < (civilFromDays date.dayNumber).1 →
      Date.serialize_2_bytes date = .error .yearOutOfRange) ∧
    ((∃ d2, Date.deserialize_2_bytes b0 b1 = .ok d2) ↔
      ∃ z : Int, civilFromDays z =
        ((((((b0 <<< 8) ||| b1) >>> 9) &&& 127 : Nat) : Int) + 2023,
         (((b0 <<< 8) ||| b1) >>> 5) &&& 15,
         ((b0 <<< 8) ||| b1) &&& 31)) ∧
    Date.serialize_2_bytes (dateOfYmd 2023 6 20) = .ok [0x00, 0xd4] ∧
    Date.deserialize_2_bytes 0xff 0x9f = .ok (dateOfYmd 2150 12 31) ∧
    Date.deserialize_2_bytes 0x00 0x5e = .error .invalidMonthOrDay := by
  obtain ⟨f1, f2, f3, f4, f5, f6⟩ := civilFromDays_facts date.dayNumber
  refine ⟨?_, ?_, ?_, by decide, by decide, by decide⟩
  · intro hyr
    unfold Date.serialize_2_bytes
    dsimp only
    rw [if_neg (by omega), if_neg (by
      intro hcon
      exact hcon ⟨f1, f2, f3, f4⟩)]
    congr 1
    rw [show ∀ n : Nat, beBytes 2 n = [n / 256 % 256, n % 256] from
      fun n => rfl]
    rw [Nat.shiftRight_eq_div_pow]
  · intro hyr
    unfold Date.serialize_2_bytes
    dsimp only
    rw [if_pos (by omega)]
  · unfold Date.deserialize_2_bytes
    dsimp only
    by_cases hcond : 1 ≤ ((b0 <<< 8) ||| b1) >>> 5 &&& 15 ∧
        ((b0 <<< 8) ||| b1) >>> 5 &&& 15 ≤ 12 ∧
        1 ≤ ((b0 <<< 8) ||| b1) &&& 31 ∧
        ((b0 <<< 8) ||| b1) &&& 31 ≤ lastDayOfMonth
          ((((((b0 <<< 8) ||| b1) >>> 9) &&& 127 : Nat) : Int) + 2023)
          (((b0 <<< 8) ||| b1) >>> 5 &&& 15)
    · rw [if_neg (not_not_intro hcond)]
      obtain ⟨hm1, hm2, hd1, hdl⟩ := hcond
      constructor
      · intro _
        exact ⟨daysFromCivil
            ((((((b0 <<< 8) ||| b1) >>> 9) &&& 127 : Nat) : Int) + 2023)
            (((b0 <<< 8) ||| b1) >>> 5 &&& 15) (((b0 <<< 8) ||| b1) &&& 31),
          civil_roundtrip _ _ _ hm1 hm2 hd1 hdl⟩
      · intro _
        exact ⟨_, rfl⟩
    · rw [if_pos hcond]
      constructor
      · rintro ⟨d2, hd2⟩
        exact absurd hd2 (by simp)
      · rintro ⟨z, hz⟩
        obtain ⟨g1, g2, g3, g4, g5, g6⟩ := civilFromDays_facts z
        rw [hz] at g1 g2 g3 g5
        exact absurd ⟨g1, g2, g3, g5⟩ hcond

theorem eqv_refl (a : ProvenanceMark) : ProvenanceMark.eqv a a = true := by
  simp [ProvenanceMark.eqv]

theorem listSlice_append_drop (p : List Nat) (a b : Nat) (hab : a ≤ b) :
    listSlice p a b ++ p.drop b = p.drop a := by
  unfold listSlice
  have hb : p.drop b = (p.drop a).drop (b - a) := by
    rw [List.drop_drop]
    congr 1
    omega
  rw [hb]
  exact List.take_append_drop _ _

theorem serialize_seq_ok (res : ProvenanceMarkResolution) (seq : Nat)
    (sb : List Nat) (h : res.serialize_seq seq = .ok sb) :
    sb.length = res.seq_bytes_length ∧ ∃ n, res.deserialize_seq sb = .ok n := by
  cases res with
  | low =>
    rw [ProvenanceMarkResolution.serialize_seq] at h
    simp only [ProvenanceMarkResolution.seq_bytes_length] at h
    split_ifs at h
    rw [Except.ok.injEq] at h
    subst h
    exact ⟨rfl, _, rfl⟩
  | medium =>
    rw [ProvenanceMarkResolution.serialize_seq] at h
    simp only [ProvenanceMarkResolution.seq_bytes_length] at h
    rw [Except.ok.injEq] at h
    subst h
    exact ⟨rfl, _, rfl⟩
  | quartile =>
    rw [ProvenanceMarkResolution.serialize_seq] at h
    simp only [ProvenanceMarkResolution.seq_bytes_length] at h
    rw [Except.ok.injEq] at h
    subst h
    exact ⟨rfl, _, rfl⟩
  | high =>
    rw [ProvenanceMarkResolution.serialize_seq] at h
    simp only [ProvenanceMarkResolution.seq_bytes_length] at h
    rw [Except.ok.injEq] at h
    subst h
    exact ⟨rfl, _, rfl⟩

theorem listSlice_append (p : List Nat) (a b c : Nat) (hab : a ≤ b)
    (hbc : b ≤ c) :
    listSlice p a b ++ listSlice p b c = listSlice p a c := by
  unfold listSlice
  have hdrop : p.drop b = (p.drop a).drop (b - a) := by
    rw [List.drop_drop]
    congr 1
    omega
  rw [hdrop, show c - a = (b - a) + (c - b) from by omega, List.take_add]

theorem slices_of_concat (A B C D E : List Nat) (L s w : Nat)
    (hA : A.length = L) (hB : B.length = L) (hC : C.length = s)
    (hD : D.length = w) :
    listSlice (A ++ B ++ C ++ D ++ E) 0 L = A ∧
    listSlice (A ++ B ++ C ++ D ++ E) L (2 * L) = B ∧
    listSlice (A ++ B ++ C ++ D ++ E) (2 * L) (2 * L + s) = C ∧
    listSlice (A ++ B ++ C ++ D ++ E) (2 * L + s) (2 * L + s + w) = D ∧
    (A ++ B ++ C ++ D ++ E).drop (2 * L + s + w) = E := by
  have hassoc : A ++ B ++ C ++ D ++ E = A ++ (B ++ (C ++ (D ++ E))) := by
    simp [List.append_assoc]
  have hd1 : (A ++ B ++ C ++ D ++ E).drop L = B ++ (C ++ (D ++ E)) := by
    rw [hassoc]
    exact List.drop_left' hA
  have hd2 : (A ++ B ++ C ++ D ++ E).drop (2 * L) = C ++ (D ++ E) := by
    rw [show 2 * L = L + L from by ring, ← List.drop_drop, hd1]
    exact List.drop_left' hB
  have hd3 : (A ++ B ++ C ++ D ++ E).drop (2 * L + s) = D ++ E := by
    rw [← List.drop_drop, hd2]
    exact List.drop_left' hC
  have hd4 : (A ++ B ++ C ++ D ++ E).drop (2 * L + s + w) = E := by
    rw [← List.drop_drop, hd3]
    exact List.drop_left' hD
  refine ⟨?_, ?_, ?_, ?_, hd4⟩
  · show ((A ++ B ++ C ++ D ++ E).drop 0).take (L - 0) = A
    rw [List.drop_zero, hassoc]
    exact List.take_left' hA
  · show ((A ++ B ++ C ++ D ++ E).drop L).take (2 * L - L) = B
    rw [hd1, show 2 * L - L = L from by omega]
    exact List.take_left' hB
  · show ((A ++ B ++ C ++ D ++ E).drop (2 * L)).take (2 * L + s - 2 * L) = C
    rw [hd2, show 2 * L + s - 2 * L = s from by omega]
    exact List.take_left' hC
  · show ((A ++ B ++ C ++ D ++ E).drop (2 * L + s)).take
      (2 * L + s + w - (2 * L + s)) = D
    rw [hd3, show 2 * L + s + w - (2 * L + s) = w from by omega]
    exact List.take_left' hD

theorem cborValid_uint (n : Nat) : cborValid (cborHead 0 n) = true := by
  unfold cborHead
  by_cases h24 : n < 24
  · rw [if_pos h24, show 0 * 32 + n = n from by omega]
    unfold cborValid cborItemSize
    dsimp only
    rw [show n / 32 = 0 from by omega, show n % 32 = n from by omega,
      show cborArgLen n = some 0 from by unfold cborArgLen; rw [if_pos h24]]
    dsimp only
    rw [if_neg (by simp : ¬ ([] : List Nat).length < 0), if_pos rfl]
    simp
  · rw [if_neg h24]
    by_cases h256 : n < 256
    · rw [if_pos h256, show 0 * 32 + 24 = 24 from by omega]
      unfold cborValid cborItemSize
      dsimp only
      rw [show (24 : Nat) / 32 = 0 from by omega,
        show (24 : Nat) % 32 = 24 from by omega,
        show cborArgLen 24 = some 1 from rfl]
      dsimp only
      rw [if_neg (by simp : ¬ ([n] : List Nat).length < 1), if_pos rfl]
      simp
    · rw [if_neg h256]
      by_cases h65536 : n < 65536
      · rw [if_pos h65536, show 0 * 32 + 25 = 25 from by omega]
        unfold cborValid cborItemSize
        dsimp only
        rw [show (25 : Nat) / 32 = 0 from by omega,
          show (25 : Nat) % 32 = 25 from by omega,
          show cborArgLen 25 = some 2 from rfl]
        dsimp only
        rw [beBytes_length, if_neg (by omega : ¬ (2 : Nat) < 2), if_pos rfl]
        simp only [List.length_cons, beBytes_length, beq_iff_eq,
          Option.some.injEq]
      · rw [if_neg h65536]
        by_cases h32 : n < 4294967296
        · rw [if_pos h32, show 0 * 32 + 26 = 26 from by omega]
          unfold cborValid cborItemSize
          dsimp only
          rw [show (26 : Nat) / 32 = 0 from by omega,
            show (26 : Nat) % 32 = 26 from by omega,
            show cborArgLen 26 = some 4 from rfl]
          dsimp only
          rw [beBytes_length, if_neg (by omega : ¬ (4 : Nat) < 4),
            if_pos rfl]
          simp only [List.length_cons, beBytes_length, beq_iff_eq,
            Option.some.injEq]
        · rw [if_neg h32, show 0 * 32 + 27 = 27 from by omega]
          unfold cborValid cborItemSize
          dsimp only
          rw [show (27 : Nat) / 32 = 0 from by omega,
            show (27 : Nat) % 32 = 27 from by omega,
            show cborArgLen 27 = some 8 from rfl]
          dsimp only
          rw [beBytes_length, if_neg (by omega : ¬ (8 : Nat) < 8),
            if_pos rfl]
          simp only [List.length_cons, beBytes_length, beq_iff_eq,
            Option.some.injEq]

theorem cborValid_head_body (maj n : Nat) (body : List Nat)
    (hmaj : maj = 2 ∨ maj = 3) (hbody : body.length = n)
    (hn : n < 18446744073709551616) :
    cborValid (cborHead maj n ++ body) = true := by
  have hmaj0 : ¬ maj = 0 := by omega
  unfold cborHead
  by_cases h24 : n < 24
  · rw [if_pos h24, List.singleton_append]
    unfold cborValid cborItemSize
    dsimp only
    rw [show (maj * 32 + n) / 32 = maj from by omega,
      show (maj * 32 + n) % 32 = n from by omega,
      show cborArgLen n = some 0 from by unfold cborArgLen; rw [if_pos h24]]
    dsimp only
    rw [if_neg (by omega : ¬ body.length < 0), if_pos h24, if_neg hmaj0,
      if_pos hmaj, if_pos (show n ≤ body.length - 0 from by omega)]
    simp only [List.length_cons, hbody, beq_iff_eq, Option.some.injEq]
    omega
  · rw [if_neg h24]
    by_cases h256 : n < 256
    · rw [if_pos h256,
        show [maj * 32 + 24, n] ++ body = (maj * 32 + 24) :: (n :: body)
          from rfl]
      unfold cborValid cborItemSize
      dsimp only
      rw [show (maj * 32 + 24) / 32 = maj from by omega,
        show (maj * 32 + 24) % 32 = 24 from by omega,
        show cborArgLen 24 = some 1 from rfl]
      dsimp only
      have hbn : beNat [n] = n := by simp [beNat]
      rw [List.length_cons, hbody, if_neg (by omega : ¬ n + 1 < 1),
        if_neg (by omega : ¬ (24 : Nat) < 24),
        show (n :: body).take 1 = [n] from rfl, hbn, if_neg hmaj0,
        if_pos hmaj, if_pos (show n ≤ n + 1 - 1 from by omega)]
      simp only [List.length_cons, hbody, beq_iff_eq, Option.some.injEq]
      omega
    · rw [if_neg h256]
      by_cases h65536 : n < 65536
      · rw [if_pos h65536,
          show ((maj * 32 + 25) :: beBytes 2 n) ++ body =
            (maj * 32 + 25) :: (beBytes 2 n ++ body) from rfl]
        unfold cborValid cborItemSize
        dsimp only
        rw [show (maj * 32 + 25) / 32 = maj from by omega,
          show (maj * 32 + 25) % 32 = 25 from by omega,
          show cborArgLen 25 = some 2 from rfl]
        dsimp only
        have hlen2 : (beBytes 2 n ++ body).length = 2 + n := by
          rw [List.length_append, beBytes_length, hbody]
        have htake : (beBytes 2 n ++ body).take 2 = beBytes 2 n :=
          List.take_left' (beBytes_length 2 n)
        rw [hlen2, if_neg (by omega : ¬ 2 + n < 2),
          if_neg (by omega : ¬ (25 : Nat) < 24), htake,
          beNat_beBytes 2 n (by
            have : (256 : Nat) ^ 2 = 65536 := by norm_num
            omega),
          if_neg hmaj0, if_pos hmaj,
          if_pos (show n ≤ 2 + n - 2 from by omega)]
        simp only [List.length_cons, hlen2, beq_iff_eq, Option.some.injEq]
        omega
      · rw [if_neg h65536]
        by_cases h32 : n < 4294967296
        · rw [if_pos h32,
            show ((maj * 32 + 26) :: beBytes 4 n) ++ body =
              (maj * 32 + 26) :: (beBytes 4 n ++ body) from rfl]
          unfold cborValid cborItemSize
          dsimp only
          rw [show (maj * 32 + 26) / 32 = maj from by omega,
            show (maj * 32 + 26) % 32 = 26 from by omega,
            show cborArgLen 26 = some 4 from rfl]
          dsimp only
          have hlen4 : (beBytes 4 n ++ body).length = 4 + n := by
            rw [List.length_append, beBytes_length, hbody]
          have htake : (beBytes 4 n ++ body).take 4 = beBytes 4 n :=
            List.take_left' (beBytes_length 4 n)
          rw [hlen4, if_neg (by omega : ¬ 4 + n < 4),
            if_neg (by omega : ¬ (26 : Nat) < 24), htake,
            beNat_beBytes 4 n (by
              have : (256 : Nat) ^ 4 = 4294967296 := by norm_num
              omega),
            if_neg hmaj0, if_pos hmaj,
            if_pos (show n ≤ 4 + n - 4 from by omega)]
          simp only [List.length_cons, hlen4, beq_iff_eq, Option.some.injEq]
          omega
        · rw [if_neg h32,
            show ((maj * 32 + 27) :: beBytes 8 n) ++ body =
              (maj * 32 + 27) :: (beBytes 8 n ++ body) from rfl]
          unfold cborValid cborItemSize
          dsimp only
          rw [show (maj * 32 + 27) / 32 = maj from by omega,
            show (maj * 32 + 27) % 32 = 27 from by omega,
            show cborArgLen 27 = some 8 from rfl]
          dsimp only
          have hlen8 : (beBytes 8 n ++ body).length = 8 + n := by
            rw [List.length_append, beBytes_length, hbody]
          have htake : (beBytes 8 n ++ body).take 8 = beBytes 8 n :=
            List.take_left' (beBytes_length 8 n)
          rw [hlen8, if_neg (by omega : ¬ 8 + n < 8),
            if_neg (by omega : ¬ (27 : Nat) < 24), htake,
            beNat_beBytes 8 n (by
              have : (256 : Nat) ^ 8 = 18446744073709551616 := by norm_num
              omega),
            if_neg hmaj0, if_pos hmaj,
            if_pos (show n ≤ 8 + n - 8 from by omega)]
          simp only [List.length_cons, hlen8, beq_iff_eq, Option.some.injEq]
          omega

/-- The canonical encoding of any machine-sized CBOR item passes the
well-formedness checker. -/
theorem cborValid_encode (v : CBORValue) (hv : CBORValue.sized v) :
    cborValid (cborEncode v) = true := by
  cases v with
  | uint n => exact cborValid_uint n
  | byteString b =>
    exact cborValid_head_body 2 b.length b (Or.inl rfl) rfl hv
  | textString t =>
    exact cborValid_head_body 3 t.length t (Or.inr rfl) rfl hv

/-- A successfully decoded mark re-serializes to the message it was decoded
from. -/
theorem from_message_message_eq (res : ProvenanceMarkResolution)
    (msg : List Nat) (m : ProvenanceMark)
    (h : ProvenanceMark.from_message res msg = .ok m) :
    ProvenanceMark.message m = msg ∧ m.res = res := by
  unfold ProvenanceMark.from_message at h
  dsimp only at h
  by_cases hlen : msg.length < res.fixed_length
  · rw [if_pos hlen] at h
    simp at h
  rw [if_neg hlen] at h
  set k := listSlice msg 0 res.link_length with hk
  set payload := obfuscate k (msg.drop res.link_length) with hpayload
  rcases hds : res.deserialize_seq (listSlice payload (2 * res.link_length)
      (2 * res.link_length + res.seq_bytes_length)) with e | seqv
  · rw [hds] at h
    simp at h
  rw [hds] at h
  dsimp only at h
  rcases hdd : res.deserialize_date (listSlice payload
      (2 * res.link_length + res.seq_bytes_length)
      (2 * res.link_length + res.seq_bytes_length + res.date_bytes_length))
    with e | datev
  · rw [hdd] at h
    simp at h
  rw [hdd] at h
  dsimp only at h
  split_ifs at h with hinfo
  rw [Except.ok.injEq] at h
  subst h
  refine ⟨?_, rfl⟩
  unfold ProvenanceMark.message
  dsimp only
  rw [listSlice_append payload 0 res.link_length (2 * res.link_length)
      (by omega) (by omega),
    listSlice_append payload 0 (2 * res.link_length)
      (2 * res.link_length + res.seq_bytes_length) (by omega) (by omega),
    listSlice_append payload 0 (2 * res.link_length + res.seq_bytes_length)
      (2 * res.link_length + res.seq_bytes_length + res.date_bytes_length)
      (by omega) (by omega),
    listSlice_append_drop payload 0
      (2 * res.link_length + res.seq_bytes_length + res.date_bytes_length)
      (by omega),
    List.drop_zero, hpayload, obfuscate_obfuscate, hk,
    show listSlice msg 0 res.link_length = msg.take res.link_length from rfl]
  exact List.take_append_drop _ _

/-- The info bytes stored by the constructor are either empty or valid
CBOR. -/
theorem infoBytes_ok (info : Option CBORValue)
    (hsized : ∀ v, info = some v → CBORValue.sized v) :
    ¬((match info with
        | some v => cborEncode v
        | none => ([] : List Nat)) ≠ [] ∧
      cborValid (match info with
        | some v => cborEncode v
        | none => ([] : List Nat)) = false) := by
  match info with
  | none => simp
  | some v =>
    dsimp only
    rw [cborValid_encode v (hsized v rfl)]
    simp

/-- Decoding the wire message of any well-formed field assignment succeeds
and yields an equal mark. -/
theorem message_roundtrip_fields (res : ProvenanceMarkResolution)
    (key cid H sb db ib : List Nat) (sq n0 : Nat) (dt d0 : Date)
    (hlk : key.length = res.link_length)
    (hlcid : cid.length = res.link_length)
    (hHlen : H.length = res.link_length)
    (hsblen : sb.length = res.seq_bytes_length)
    (hdblen : db.length = res.date_bytes_length)
    (hdseq : res.deserialize_seq sb = .ok n0)
    (hdes : res.deserialize_date db = .ok d0)
    (hibok : ¬(ib ≠ [] ∧ cborValid ib = false)) :
    ∃ m2, ProvenanceMark.from_message res (ProvenanceMark.message
        { seq := sq, date := dt, res := res, chain_id := cid, key := key,
          hash := H, info_bytes := ib, seq_bytes := sb,
          date_bytes := db }) = .ok m2 ∧
      ProvenanceMark.eqv m2
        { seq := sq, date := dt, res := res, chain_id := cid, key := key,
          hash := H, info_bytes := ib, seq_bytes := sb,
          date_bytes := db } = true := by
  have hmsg : ProvenanceMark.message
      { seq := sq, date := dt, res := res, chain_id := cid, key := key,
        hash := H, info_bytes := ib, seq_bytes := sb, date_bytes := db } =
      key ++ obfuscate key (cid ++ H ++ sb ++ db ++ ib) := rfl
  rw [hmsg]
  have hconlen : (cid ++ H ++ sb ++ db ++ ib).length =
      res.link_length + res.link_length + res.seq_bytes_length +
        res.date_bytes_length + ib.length := by
    simp only [List.length_append, hlcid, hHlen, hsblen, hdblen]
  have hmlen : (key ++ obfuscate key (cid ++ H ++ sb ++ db ++ ib)).length =
      res.link_length + (res.link_length + res.link_length +
        res.seq_bytes_length + res.date_bytes_length + ib.length) := by
    rw [List.length_append, obfuscate_length, hlk, hconlen]
  obtain ⟨hs1, hs2, hs3, hs4, hs5⟩ := slices_of_concat cid H sb db ib
    res.link_length res.seq_bytes_length res.date_bytes_length
    hlcid hHlen hsblen hdblen
  have hkey' : listSlice (key ++ obfuscate key (cid ++ H ++ sb ++ db ++ ib))
      0 res.link_length = key := by
    show (key ++ obfuscate key (cid ++ H ++ sb ++ db ++ ib)).take
      res.link_length = key
    exact List.take_left' hlk
  have hdrop' : (key ++ obfuscate key (cid ++ H ++ sb ++ db ++ ib)).drop
      res.link_length = obfuscate key (cid ++ H ++ sb ++ db ++ ib) :=
    List.drop_left' hlk
  refine ⟨{ seq := n0, date := d0, res := res, chain_id := cid, key := key,
            hash := H, info_bytes := ib, seq_bytes := sb,
            date_bytes := db }, ?_, ?_⟩
  · unfold ProvenanceMark.from_message
    dsimp only
    rw [if_neg (by
      rw [hmlen]
      unfold ProvenanceMarkResolution.fixed_length
      omega)]
    rw [hkey', hdrop', obfuscate_obfuscate, hs1, hs2, hs3, hs4, hs5, hdseq]
    dsimp only
    rw [hdes]
    dsimp only
    rw [if_neg hibok]
  · unfold ProvenanceMark.eqv ProvenanceMark.message
    dsimp only
    simp

/-- A successfully constructed mark's wire message decodes to an equal
mark. -/
theorem new_roundtrip (res : ProvenanceMarkResolution)
    (key next_key chain_id : List Nat) (seq : Nat) (date : Date)
    (info : Option CBORValue) (m : ProvenanceMark)
    (hsized : ∀ v, info = some v → CBORValue.sized v)
    (h : ProvenanceMark.new res key next_key chain_id seq date info =
      .ok m) :
    ∃ m2, ProvenanceMark.from_message res (ProvenanceMark.message m) =
      .ok m2 ∧ ProvenanceMark.eqv m2 m = true := by
  unfold ProvenanceMark.new at h
  split_ifs at h with hlk hlnk hlcid
  rw [not_ne_iff] at hlk hlnk hlcid
  rcases hser : res.serialize_date date with e | date_bytes
  · rw [hser] at h
    simp at h
  rw [hser] at h
  dsimp only at h
  rcases hseq : res.serialize_seq seq with e | seq_bytes
  · rw [hseq] at h
    simp at h
  rw [hseq] at h
  dsimp only at h
  rcases hdes : res.deserialize_date date_bytes with e | date2
  · rw [hdes] at h
    simp at h
  rw [hdes] at h
  dsimp only at h
  rw [Except.ok.injEq] at h
  subst h
  obtain ⟨hsblen, hdseqEx⟩ := serialize_seq_ok res seq seq_bytes hseq
  obtain ⟨n0, hdseq⟩ := hdseqEx
  obtain ⟨_, hdblen⟩ := ser_date_deser res date date_bytes hser
  have hHlen : ∀ ib2 : List Nat, (ProvenanceMark.make_hash res key next_key
      chain_id seq_bytes date_bytes ib2).length = res.link_length := by
    intro ib2
    unfold ProvenanceMark.make_hash sha256Prefix
    rw [List.length_take, sha256_length]
    cases res <;> rfl
  rcases info with _ | v
  · dsimp only
    exact message_roundtrip_fields res key chain_id _ seq_bytes date_bytes
      [] seq n0 date2 date2 hlk hlcid (hHlen []) hsblen hdblen hdseq hdes
      (by simp)
  · dsimp only
    exact message_roundtrip_fields res key chain_id _ seq_bytes date_bytes
      (cborEncode v) seq n0 date2 date2 hlk hlcid (hHlen (cborEncode v))
      hsblen hdblen hdseq hdes
      (by
        rw [cborValid_encode v (hsized v rfl)]
        simp)

/-- C1: every mark produced by a successful construction or decoded from a
message round-trips: decoding its wire message succeeds and yields a mark
equal to it under the mark-equality rule. -/
theorem C1_roundtrip (res : ProvenanceMarkResolution) (m : ProvenanceMark)
    (h : (∃ key next_key chain_id seq date info,
            (∀ v, info = some v → CBORValue.sized v) ∧
            ProvenanceMark.new res key next_key chain_id seq date info =
              .ok m) ∨
         ∃ msg, ProvenanceMark.from_message res msg = .ok m) :
    ∃ m2, ProvenanceMark.from_message res (ProvenanceMark.message m) =
      .ok m2 ∧ ProvenanceMark.eqv m2 m = true := by
  rcases h with ⟨key, nk, cid, seq, date, info, hsized, hnew⟩ | ⟨msg, hmsg⟩
  · exact new_roundtrip res key nk cid seq date info m hsized hnew
  · obtain ⟨hme, _⟩ := from_message_message_eq res msg m hmsg
    refine ⟨m, ?_, eqv_refl m⟩
    rw [hme]
    exact hmsg

/-- C1 witness at the concrete Low-resolution mark. -/
theorem C1_roundtrip_witness :
    ∃ m2, ProvenanceMark.from_message .low (ProvenanceMark.message c1mark) =
      .ok m2 ∧ ProvenanceMark.eqv m2 c1mark = true :=
 by
  apply C1_roundtrip .low c1mark
  left
  refine ⟨[1, 1, 1, 1], [2, 2, 2, 2], [1, 1, 1, 1], 0, dateOfYmd 2023 6 20,
    none, ?_, by decide⟩
  intro v hv
  exact Option.noConfusion hv

/-- C4: a successfully constructed mark stores the link-length prefix of
SHA-256 over key ‖ next key ‖ chain id ‖ seq bytes ‖ date bytes ‖ info
bytes as its hash (of length exactly the link length), and its stored date
is the re-decoding of the encoded date bytes, which re-encode to the same
date bytes. -/
theorem C4_new (res : ProvenanceMarkResolution)
    (key next_key chain_id : List Nat) (seq : Nat) (date : Date)
    (info : Option CBORValue) (m : ProvenanceMark)
    (h : ProvenanceMark.new res key next_key chain_id seq date info =
      .ok m) :
    m.hash = sha256Prefix
      (key ++ next_key ++ chain_id ++ m.seq_bytes ++ m.date_bytes ++
        m.info_bytes) res.link_length ∧
    m.hash.length = res.link_length ∧
    res.deserialize_date m.date_bytes = .ok m.date ∧
    res.serialize_date m.date = .ok m.date_bytes := by
  unfold ProvenanceMark.new at h
  split_ifs at h
  rcases hser : res.serialize_date date with e | date_bytes
  · rw [hser] at h
    simp at h
  rw [hser] at h
  dsimp only at h
  rcases hseq : res.serialize_seq seq with e | seq_bytes
  · rw [hseq] at h
    simp at h
  rw [hseq] at h
  dsimp only at h
  rcases hdes : res.deserialize_date date_bytes with e | date2
  · rw [hdes] at h
    simp at h
  rw [hdes] at h
  dsimp only at h
  rw [Except.ok.injEq] at h
  subst h
  obtain ⟨⟨d2, hd1, hd2⟩, _⟩ := ser_date_deser res date date_bytes hser
  rw [hdes, Except.ok.injEq] at hd1
  subst hd1
  refine ⟨rfl, ?_, hdes, hd2⟩
  show (sha256Prefix _ res.link_length).length = res.link_length
  unfold sha256Prefix
  rw [List.length_take, sha256_length]
  cases res <;> rfl

/-- C4 witness at the concrete Low-resolution construction. -/
theorem C4_new_witness :
    c1mark.hash = sha256Prefix
      ([1, 1, 1, 1] ++ [2, 2, 2, 2] ++ [1, 1, 1, 1] ++ c1mark.seq_bytes ++
        c1mark.date_bytes ++ c1mark.info_bytes)
      ProvenanceMarkResolution.low.link_length ∧
    c1mark.hash.length = ProvenanceMarkResolution.low.link_length ∧
    ProvenanceMarkResolution.low.deserialize_date c1mark.date_bytes =
      .ok c1mark.date ∧
    ProvenanceMarkResolution.low.serialize_date c1mark.date =
      .ok c1mark.date_bytes :=
  C4_new .low [1, 1, 1, 1] [2, 2, 2, 2] [1, 1, 1, 1] 0 (dateOfYmd 2023 6 20)
    none c1mark (by decide)

theorem dedupGo_sublist (seen l : List ProvenanceMark) :
    (dedupGo seen l).Sublist l := by
  induction l generalizing seen with
  | nil => simp [dedupGo]
  | cons m rest ih =>
    rw [dedupGo]
    by_cases hs : (seen.any fun s => s.eqv m) = true
    · rw [if_pos hs]
      exact (ih seen).cons m
    · rw [if_neg hs]
      exact (ih (m :: seen)).cons₂ m

theorem dedupGo_seen_false (seen l : List ProvenanceMark) :
    ∀ x ∈ dedupGo seen l, ∀ s ∈ seen, s.eqv x = false := by
  induction l generalizing seen with
  | nil =>
    intro x hx
    simp [dedupGo] at hx
  | cons m rest ih =>
    intro x hx s hs
    rw [dedupGo] at hx
    by_cases hseen : (seen.any fun s2 => s2.eqv m) = true
    · rw [if_pos hseen] at hx
      exact ih seen x hx s hs
    · rw [if_neg hseen] at hx
      rcases List.mem_cons.mp hx with rfl | hx2
      · rw [List.any_eq_true] at hseen
        push_neg at hseen
        exact Bool.not_eq_true _ ▸ hseen s hs
      · exact ih (m :: seen) x hx2 s (List.mem_cons_of_mem m hs)

theorem dedupGo_pairwise (seen l : List ProvenanceMark) :
    (dedupGo seen l).Pairwise (fun a b => a.eqv b = false) := by
  induction l generalizing seen with
  | nil => simp [dedupGo]
  | cons m rest ih =>
    rw [dedupGo]
    by_cases hseen : (seen.any fun s2 => s2.eqv m) = true
    · rw [if_pos hseen]
      exact ih seen
    · rw [if_neg hseen]
      refine List.Pairwise.cons ?_ (ih (m :: seen))
      intro b hb
      exact dedupGo_seen_false (m :: seen) rest b hb m (List.mem_cons_self m seen)

theorem dedupGo_covers (seen l : List ProvenanceMark) :
    ∀ x ∈ l, (∃ s ∈ seen, s.eqv x = true) ∨
      ∃ k ∈ dedupGo seen l, k.eqv x = true := by
  induction l generalizing seen with
  | nil =>
    intro x hx
    simp at hx
  | cons m rest ih =>
    intro x hx
    rw [dedupGo]
    rcases List.mem_cons.mp hx with rfl | hx2
    · by_cases hseen : (seen.any fun s2 => s2.eqv x) = true
      · rw [if_pos hseen]
        left
        rw [List.any_eq_true] at hseen
        exact hseen
      · rw [if_neg hseen]
        right
        exact ⟨x, List.mem_cons_self _ _, eqv_refl x⟩
    · by_cases hseen : (seen.any fun s2 => s2.eqv m) = true
      · rw [if_pos hseen]
        exact ih seen x hx2
      · rw [if_neg hseen]
        rcases ih (m :: seen) x hx2 with ⟨s, hs1, hs2⟩ | ⟨k, hk1, hk2⟩
        · rcases List.mem_cons.mp hs1 with rfl | hs3
          · right
            exact ⟨s, List.mem_cons_self _ _, hs2⟩
          · left
            exact ⟨s, hs3, hs2⟩
        · right
          exact ⟨k, List.mem_cons_of_mem m hk1, hk2⟩

theorem binInsert_chainid (cid : List Nat) (m : ProvenanceMark)
    (bins : List (List Nat × List ProvenanceMark))
    (hbins : ∀ p ∈ bins, ∀ x ∈ p.2, x.chain_id = p.1)
    (hm : m.chain_id = cid) :
    ∀ p ∈ binInsert cid m bins, ∀ x ∈ p.2, x.chain_id = p.1 := by
  revert hbins
  induction bins with
  | nil =>
    intro _ p hp x hx
    rw [binInsert] at hp
    rcases List.mem_singleton.mp hp with rfl
    rcases List.mem_singleton.mp hx with rfl
    exact hm
  | cons b rest ih =>
    obtain ⟨k, ms⟩ := b
    intro hbins p hp x hx
    rw [binInsert] at hp
    by_cases hk : k = cid
    · rw [if_pos hk] at hp
      rcases List.mem_cons.mp hp with rfl | hp2
      · rcases List.mem_append.mp hx with hx1 | hx1
        · exact hbins (k, ms) (List.mem_cons_self _ _) x hx1
        · rcases List.mem_singleton.mp hx1 with rfl
          rw [hm, hk]
      · exact hbins p (List.mem_cons_of_mem _ hp2) x hx
    · rw [if_neg hk] at hp
      rcases List.mem_cons.mp hp with rfl | hp2
      · exact hbins (k, ms) (List.mem_cons_self _ _) x hx
      · exact ih (fun q hq => hbins q (List.mem_cons_of_mem _ hq)) p hp2 x hx

theorem binInsert_flatten_perm (cid : List Nat) (m : ProvenanceMark)
    (bins : List (List Nat × List ProvenanceMark)) :
    ((binInsert cid m bins).map Prod.snd).flatten.Perm
      (m :: (bins.map Prod.snd).flatten) := by
  induction bins with
  | nil =>
    rw [binInsert]
    simp
  | cons b rest ih =>
    obtain ⟨k, ms⟩ := b
    rw [binInsert]
    by_cases hk : k = cid
    · rw [if_pos hk]
      simp only [List.map_cons, List.flatten_cons]
      rw [List.append_assoc, List.singleton_append]
      exact List.perm_middle
    · rw [if_neg hk]
      simp only [List.map_cons, List.flatten_cons]
      exact (ih.append_left ms).trans List.perm_middle

theorem binByChain_props (marks : List ProvenanceMark) :
    (∀ p ∈ binByChain marks, ∀ x ∈ p.2, x.chain_id = p.1) ∧
    ((binByChain marks).map Prod.snd).flatten.Perm marks := by
  suffices h : ∀ (bins : List (List Nat × List ProvenanceMark)),
      (∀ p ∈ bins, ∀ x ∈ p.2, x.chain_id = p.1) →
      (∀ p ∈ marks.foldl (fun bs m => binInsert m.chain_id m bs) bins,
        ∀ x ∈ p.2, x.chain_id = p.1) ∧
      ((marks.foldl (fun bs m => binInsert m.chain_id m bs) bins).map
        Prod.snd).flatten.Perm ((bins.map Prod.snd).flatten ++ marks) by
    obtain ⟨h1, h2⟩ := h [] (by simp)
    exact ⟨h1, by simpa using h2⟩
  induction marks with
  | nil =>
    intro bins hb
    exact ⟨hb, by simp⟩
  | cons m rest ih =>
    intro bins hb
    rw [List.foldl_cons]
    obtain ⟨h1, h2⟩ := ih (binInsert m.chain_id m bins)
      (binInsert_chainid m.chain_id m bins hb rfl)
    refine ⟨h1, h2.trans ?_⟩
    have hperm := binInsert_flatten_perm m.chain_id m bins
    exact (hperm.append_right rest).trans List.perm_middle.symm

theorem bytesLt_irrefl (a : List Nat) : bytesLt a a = false := by
  induction a with
  | nil => rfl
  | cons x xs ih =>
    rw [bytesLt, if_neg (by omega), if_neg (by omega)]
    exact ih

theorem bytesLt_asymm (a b : List Nat) (h : bytesLt a b = true) :
    bytesLt b a = false := by
  induction a generalizing b with
  | nil =>
    match b with
    | [] => simp [bytesLt] at h
    | x :: xs => simp [bytesLt]
  | cons x xs ih =>
    match b with
    | [] => simp [bytesLt] at h
    | y :: ys =>
      rw [bytesLt] at h ⊢
      by_cases hxy : x < y
      · rw [if_neg (by omega), if_pos hxy]
      · by_cases hyx : y < x
        · rw [if_neg hxy, if_pos hyx] at h
          exact absurd h (by simp)
        · rw [if_neg hxy, if_neg hyx] at h
          rw [if_neg hyx, if_neg hxy]
          exact ih ys h

theorem bytesLt_trans (a b c : List Nat) (h1 : bytesLt a b = true)
    (h2 : bytesLt b c = true) : bytesLt a c = true := by
  induction a generalizing b c with
  | nil =>
    match b, c with
    | [], _ => simp [bytesLt] at h1
    | _ :: _, [] => simp [bytesLt] at h2
    | _ :: _, _ :: _ => simp [bytesLt]
  | cons x xs ih =>
    match b, c with
    | [], _ => simp [bytesLt] at h1
    | _ :: _, [] => simp [bytesLt] at h2
    | y :: ys, z :: zs =>
      rw [bytesLt] at h1 h2 ⊢
      by_cases hxy : x < y
      · by_cases hyz : y < z
        · rw [if_pos (by omega)]
        · by_cases hzy : z < y
          · rw [if_neg hyz, if_pos hzy] at h2
            exact absurd h2 (by simp)
          · rw [if_pos (by omega)]
      · by_cases hyx : y < x
        · rw [if_neg hxy, if_pos hyx] at h1
          exact absurd h1 (by simp)
        · rw [if_neg hxy, if_neg hyx] at h1
          by_cases hyz : y < z
          · rw [if_pos (by omega)]
          · by_cases hzy : z < y
            · rw [if_neg hyz, if_pos hzy] at h2
              exact absurd h2 (by simp)
            · rw [if_neg hyz, if_neg hzy] at h2
              rw [if_neg (by omega), if_neg (by omega)]
              exact ih ys zs h1 h2

theorem bytesLt_trichotomy (a b : List Nat) :
    bytesLt a b = true ∨ bytesLt b a = true ∨ a = b := by
  induction a generalizing b with
  | nil =>
    match b with
    | [] => right; right; rfl
    | x :: xs => left; simp [bytesLt]
  | cons x xs ih =>
    match b with
    | [] =>
      right
      left
      simp [bytesLt]
    | y :: ys =>
      rw [bytesLt, bytesLt]
      by_cases hxy : x < y
      · left
        rw [if_pos hxy]
      · by_cases hyx : y < x
        · right
          left
          rw [if_pos hyx]
        · rw [if_neg hxy, if_neg hyx, if_neg hyx, if_neg hxy]
          rcases ih ys with h | h | h
          · left
            exact h
          · right
            left
            exact h
          · right
            right
            rw [h, show x = y from by omega]

theorem bytesLe_total (a b : List Nat) :
    bytesLe a b = true ∨ bytesLe b a = true := by
  unfold bytesLe
  rw [Bool.not_eq_true', Bool.not_eq_true']
  rcases bytesLt_trichotomy a b with h | h | h
  · left
    exact bytesLt_asymm a b h
  · right
    exact bytesLt_asymm b a h
  · subst h
    left
    exact bytesLt_irrefl a

theorem bytesLe_trans (a b c : List Nat) (h1 : bytesLe a b = true)
    (h2 : bytesLe b c = true) : bytesLe a c = true := by
  unfold bytesLe at h1 h2 ⊢
  rw [Bool.not_eq_true'] at h1 h2 ⊢
  by_contra hca
  rw [Bool.not_eq_false] at hca
  rcases bytesLt_trichotomy a b with h | h | h
  · have hcb := bytesLt_trans c a b hca h
    rw [hcb] at h2
    simp at h2
  · rw [h] at h1
    simp at h1
  · subst h
    rw [hca] at h2
    simp at h2

/-- C6: the validator removes exact duplicates (keeping one representative
of every equality class, with no two kept marks equal), partitions the kept
marks into chains whose members share the chain's id, sorts each chain by
sequence number, flags has_genesis exactly when the first sorted mark is a
genesis mark at sequence number zero, and sorts the chain reports by
ascending chain id bytes. -/
theorem C6_validate (marks : List ProvenanceMark) :
    (ValidationReport.validate marks).marks.Sublist marks ∧
    List.Pairwise (fun a b => ProvenanceMark.eqv a b = false)
      (ValidationReport.validate marks).marks ∧
    (∀ m ∈ marks, ∃ m2 ∈ (ValidationReport.validate marks).marks,
      ProvenanceMark.eqv m2 m = true) ∧
    (((ValidationReport.validate marks).chains.map
      ChainReport.marks).flatten).Perm (ValidationReport.validate marks).marks ∧
    (∀ c ∈ (ValidationReport.validate marks).chains,
      (∀ x ∈ c.marks, x.chain_id = c.chain_id) ∧
      List.Sorted (fun a b : ProvenanceMark => a.seq ≤ b.seq) c.marks ∧
      (c.has_genesis = true ↔ ∃ m rest, c.marks = m :: rest ∧ m.seq = 0 ∧
        m.is_genesis = true)) ∧
    List.Sorted (fun c1 c2 : ChainReport =>
      bytesLe c1.chain_id c2.chain_id = true)
      (ValidationReport.validate marks).chains := by
  haveI instTot1 : IsTotal ProvenanceMark
      (fun a b : ProvenanceMark => a.seq ≤ b.seq) :=
    ⟨fun a b => Nat.le_total _ _⟩
  haveI instTrans1 : IsTrans ProvenanceMark
      (fun a b : ProvenanceMark => a.seq ≤ b.seq) :=
    ⟨fun a b c h1 h2 => Nat.le_trans h1 h2⟩
  haveI instTot2 : IsTotal ChainReport
      (fun c1 c2 : ChainReport => bytesLe c1.chain_id c2.chain_id = true) :=
    ⟨fun a b => bytesLe_total _ _⟩
  haveI instTrans2 : IsTrans ChainReport
      (fun c1 c2 : ChainReport => bytesLe c1.chain_id c2.chain_id = true) :=
    ⟨fun a b c => bytesLe_trans _ _ _⟩
  obtain ⟨hbin1, hbin2⟩ := binByChain_props (dedupMarks marks)
  have hmarks : (ValidationReport.validate marks).marks =
      dedupMarks marks := rfl
  have hchains : (ValidationReport.validate marks).chains =
      List.insertionSort (fun c1 c2 : ChainReport =>
        bytesLe c1.chain_id c2.chain_id = true)
        ((binByChain (dedupMarks marks)).map (fun bin =>
          ({ chain_id := bin.1,
             has_genesis := match List.insertionSort
                 (fun a b : ProvenanceMark => a.seq ≤ b.seq) bin.2 with
               | [] => false
               | m :: _ => m.seq == 0 && m.is_genesis,
             marks := List.insertionSort
               (fun a b : ProvenanceMark => a.seq ≤ b.seq) bin.2,
             sequences := build_sequence_bins (List.insertionSort
               (fun a b : ProvenanceMark => a.seq ≤ b.seq) bin.2) } :
            ChainReport))) := rfl
  refine ⟨?_, ?_, ?_, ?_, ?_, ?_⟩
  · rw [hmarks]
    exact dedupGo_sublist [] marks
  · rw [hmarks]
    exact dedupGo_pairwise [] marks
  · rw [hmarks]
    intro m hm
    rcases dedupGo_covers [] marks m hm with ⟨s, hs, _⟩ | ⟨k, hk1, hk2⟩
    · simp at hs
    · exact ⟨k, hk1, hk2⟩
  · rw [hmarks, hchains]
    refine (((List.perm_insertionSort _ _).map ChainReport.marks).flatten).trans
      ?_
    have hforall : ∀ bins2 : List (List Nat × List ProvenanceMark),
        List.Forall₂ (fun l1 l2 => l1.Perm l2)
          (((bins2.map (fun bin =>
            ({ chain_id := bin.1,
               has_genesis := match List.insertionSort
                   (fun a b : ProvenanceMark => a.seq ≤ b.seq) bin.2 with
                 | [] => false
                 | m :: _ => m.seq == 0 && m.is_genesis,
               marks := List.insertionSort
                 (fun a b : ProvenanceMark => a.seq ≤ b.seq) bin.2,
               sequences := build_sequence_bins (List.insertionSort
                 (fun a b : ProvenanceMark => a.seq ≤ b.seq) bin.2) } :
              ChainReport))).map ChainReport.marks))
          (bins2.map Prod.snd) := by
      intro bins2
      induction bins2 with
      | nil => constructor
      | cons b r ihb =>
        simp only [List.map_cons]
        exact List.Forall₂.cons (List.perm_insertionSort _ _) ihb
    exact (List.Perm.flatten_congr
      (hforall (binByChain (dedupMarks marks)))).trans hbin2
  · rw [hchains]
    intro c hc
    rw [List.mem_insertionSort] at hc
    rcases List.mem_map.mp hc with ⟨bin, hbinmem, rfl⟩
    refine ⟨?_, ?_, ?_⟩
    · intro x hx
      show x.chain_id = bin.1
      exact hbin1 bin hbinmem x ((List.mem_insertionSort _).mp hx)
    · exact List.sorted_insertionSort _ _
    · show (match List.insertionSort
          (fun a b : ProvenanceMark => a.seq ≤ b.seq) bin.2 with
          | [] => false
          | m :: _ => m.seq == 0 && m.is_genesis) = true ↔
        ∃ m rest, List.insertionSort
          (fun a b : ProvenanceMark => a.seq ≤ b.seq) bin.2 = m :: rest ∧
          m.seq = 0 ∧ m.is_genesis = true
      rcases hsort : List.insertionSort
          (fun a b : ProvenanceMark => a.seq ≤ b.seq) bin.2 with _ | ⟨m0, r0⟩
      · simp
      · simp only [Bool.and_eq_true, beq_iff_eq]
        constructor
        · rintro ⟨h0, hg⟩
          exact ⟨m0, r0, rfl, h0, hg⟩
        · rintro ⟨m', rest', heq, h0, hg⟩
          rw [List.cons.injEq] at heq
          rw [heq.1]
          exact ⟨h0, hg⟩
  · rw [hchains]
    exact List.sorted_insertionSort _ _

/-- C5 counterexample to the original claim: the two-mark chain starting at
sequence number 1 passes is_sequence_valid although its first mark is not a
genesis mark. -/
theorem C5_counterexample :
    ProvenanceMark.is_sequence_valid [c5MarkA, c5MarkB] = true ∧
    c5MarkA.is_genesis = false := by
  constructor
  · decide
  · decide

end Provenance
